import Mathlib

/-!
# Shallow embedding of `src/src/tokenize.c`

A `char *` is modelled by the list of bytes stored from the pointer onwards,
up to (not including) the terminating NUL of the buffer: reading `*p` on the
empty list gives NUL, `p++` is `List.tail`, `p + n` is `List.drop n`.  A NUL
inside the list is read as a terminator exactly as the C code would read it.
A `char` is a `Char`: the code only compares a byte with ASCII characters.

The singly linked token list (`next` pointers, ended by `NULL`) is a
`List t_token`.  `assert_error` does not return: it is the `error` branch of
`Except`.  Allocation (`calloc`, `strndup`, `strdup`, `realloc`) is assumed to
succeed, so `fatal_error` is not reached.  The two `while` loops that advance
the cursor by a data-dependent amount take a fuel argument; the callers pass
the length of the line plus one.
-/

-- Results of `Except` are compared by `decide` in the concrete evaluations.
deriving instance DecidableEq for Except

namespace Minishell

/-- The terminator of a C string. -/
def NUL : Char := Char.ofNat 0

/-- Modelled from the spec: the macro `SINGLE_QUOTE_CHAR` of `minishell.h`,
the single-quote character. -/
def SINGLE_QUOTE_CHAR : Char := Char.ofNat 39

/-- Modelled from the spec: the macro `DOUBLE_QUOTE_CHAR` of `minishell.h`,
the double-quote character. -/
def DOUBLE_QUOTE_CHAR : Char := Char.ofNat 34

/-- Modelled from the spec: the enumeration `t_token_kind` of `minishell.h`
(`WORD`, `OPERATOR`, `END_OF_INPUT`), with the names the source uses. -/
inductive t_token_kind where
  | TK_WORD
  | TK_OP
  | TK_EOF
deriving DecidableEq

/-- Modelled from the spec: the structure `t_token` of `minishell.h`; `word`
is `none` for a `NULL` pointer, and the `next` link is the tail of the list
that holds the token. -/
structure t_token where
  word : Option (List Char)
  kind : t_token_kind
deriving DecidableEq

/-- The labels passed to `assert_error`, and the exhaustion of the fuel of a
loop of the embedding (which is not a behaviour of the C code). -/
inductive TokError where
  | Unexpected_operator
  | Unclosed_single_quote
  | Unclosed_double_quote
  | Unexpected_character
  | out_of_fuel
deriving DecidableEq

open t_token_kind TokError

/-- The byte `*p`. -/
def deref (p : List Char) : Char := p.headD NUL

/-- The C library `strlen`. -/
def strlen (s : List Char) : Nat := (s.takeWhile (fun c => c != NUL)).length

/-- The C library `strndup`: at most `n` bytes, stopping at a NUL. -/
def strndup (s : List Char) (n : Nat) : List Char :=
  (s.take n).takeWhile (fun c => c != NUL)

/-- The C library `strdup`. -/
def strdup (s : List Char) : List Char := s.takeWhile (fun c => c != NUL)

def new_token (word : Option (List Char)) (kind : t_token_kind) : t_token :=
  ⟨word, kind⟩

def is_blank (c : Char) : Bool :=
  c == ' ' || c == '\t' || c == '\n'

/-- The loop `while (*line && is_blank(*line)) line++;`. -/
def skip_blank : List Char → List Char
  | [] => []
  | c :: cs => if c != NUL && is_blank c then skip_blank cs else c :: cs

/-- The pair is the returned flag and the value stored in `*rest`. -/
def consume_blank (line : List Char) : Bool × List Char :=
  if is_blank (deref line) then (true, skip_blank line) else (false, line)

/-- The test `memcmp(s, keyword, strlen(keyword)) == 0`: the buffer of `s` is
its bytes followed by the terminator. -/
def startswith (s keyword : List Char) : Bool :=
  (s ++ [NUL]).take (strlen keyword) == keyword.take (strlen keyword)

/-- The table `operators` of `is_operator` and of `operator`. -/
def operators : List (List Char) :=
  [['|', '|'], ['&'], ['&', '&'], [';'], [';', ';'], ['('], [')'], ['|'], ['\n']]

def is_operator (s : List Char) : Bool :=
  operators.any (fun op => startswith s op)

/-- The string literal of `is_metacharacter`. -/
def metacharacters : List Char :=
  ['|', '&', ';', '(', ')', '<', '>', ' ', '\t', '\n']

def is_metacharacter (c : Char) : Bool :=
  c != NUL && metacharacters.contains c

def is_word (s : List Char) : Bool :=
  deref s != NUL && !is_metacharacter (deref s)

/-- The token and the value stored in `*reset`. -/
def operator (line : List Char) : Except TokError (t_token × List Char) :=
  match operators.find? (fun op => startswith line op) with
  | some op =>
      .ok (new_token (some (strndup line (strlen op))) TK_OP, line.drop (strlen op))
  | none => .error Unexpected_operator

/-- The loop `while (*line != q) { if (*line == 0) assert_error(..); line++; }`:
the result is the cursor at the closing quote. -/
def until_quote (q : Char) (err : TokError) : List Char → Except TokError (List Char)
  | [] => if NUL != q then .error err else .ok []
  | c :: cs =>
      if c != q then
        if c == NUL then .error err else until_quote q err cs
      else .ok (c :: cs)

/-- The outer loop of `word`; the result is the final cursor. -/
def word_loop : Nat → List Char → Except TokError (List Char)
  | 0, _ => .error out_of_fuel
  | fuel + 1, line =>
      if deref line != NUL && !is_metacharacter (deref line) then
        if deref line == SINGLE_QUOTE_CHAR then
          match until_quote SINGLE_QUOTE_CHAR Unclosed_single_quote line.tail with
          | .error e => .error e
          | .ok l => word_loop fuel l.tail
        else if deref line == DOUBLE_QUOTE_CHAR then
          match until_quote DOUBLE_QUOTE_CHAR Unclosed_double_quote line.tail with
          | .error e => .error e
          | .ok l => word_loop fuel l.tail
        else word_loop fuel line.tail
      else .ok line

/-- The token and the value stored in `*rest`; `line - start` is the
difference of the two cursors. -/
def word (start : List Char) : Except TokError (t_token × List Char) :=
  match word_loop (start.length + 1) start with
  | .error e => .error e
  | .ok line =>
      .ok (new_token (some (strndup start (start.length - line.length))) TK_WORD, line)

/-- The loop of `tokenize` and the final `TK_EOF` token. -/
def tokenize_loop : Nat → List Char → Except TokError (List t_token)
  | 0, _ => .error out_of_fuel
  | fuel + 1, line =>
      if deref line != NUL then
        if (consume_blank line).1 then tokenize_loop fuel (consume_blank line).2
        else if is_operator (consume_blank line).2 then
          match operator (consume_blank line).2 with
          | .error e => .error e
          | .ok (tok, rest) =>
              match tokenize_loop fuel rest with
              | .error e => .error e
              | .ok toks => .ok (tok :: toks)
        else if is_word (consume_blank line).2 then
          match word (consume_blank line).2 with
          | .error e => .error e
          | .ok (tok, rest) =>
              match tokenize_loop fuel rest with
              | .error e => .error e
              | .ok toks => .ok (tok :: toks)
        else .error Unexpected_character
      else .ok [new_token none TK_EOF]

def tokenize (line : List Char) : Except TokError (List t_token) :=
  tokenize_loop (line.length + 1) line

/-- A `char **`: `none` is the `NULL` pointer, otherwise the slots of the
allocated block, where a slot is `none` for a `NULL` entry. -/
abbrev argv_t := Option (List (Option (List Char)))

/-- The C library `realloc` to a block of `n` slots: the old slots are kept
up to the new size.  The value of a fresh slot is indeterminate in C; it is
`none` here, and `tail_recursive` writes the two slots it adds before
returning. -/
def realloc (argv : argv_t) (n : Nat) : List (Option (List Char)) :=
  match argv with
  | none => List.replicate n none
  | some old => old.take n ++ List.replicate (n - old.length) none

/-- The result is `none` when `strdup` is applied to a `NULL` word, which C
leaves undefined; `nargs` is an `int` in C and stays far below its range. -/
def tail_recursive : List t_token → Nat → argv_t → Option argv_t
  | [], _, argv => some argv
  | tok :: next, nargs, argv =>
      if tok.kind = TK_EOF then some argv
      else
        match tok.word with
        | none => none
        | some w =>
            tail_recursive next (nargs + 1)
              (some (((realloc argv (nargs + 2)).set nargs (some (strdup w))).set
                (nargs + 1) none))

/-- The block of one `NULL` slot that `calloc` returns is stored in the local
`argv` and is not used afterwards: the call passes `NULL`. -/
def token_list_to_argv (tok : List t_token) : Option argv_t :=
  let _argv : argv_t := some [none]
  tail_recursive tok 0 none

/-! ## Predicates that state the claims -/

/-- Exactly one of three tests holds. -/
def exactly_one (a b c : Bool) : Prop :=
  (a = true ∧ b = false ∧ c = false) ∨ (a = false ∧ b = true ∧ c = false) ∨
    (a = false ∧ b = false ∧ c = true)

/-- A token that `token_list_to_argv` copies: not the end marker, and its
text is a C string (a non-null pointer to bytes without a NUL). -/
def is_text_token (t : t_token) : Prop :=
  t.kind ≠ TK_EOF ∧ ∃ w, t.word = some w ∧ NUL ∉ w

/-- What `tail_recursive` stops at: the `NULL` end of the list, or a token of
kind `TK_EOF`. -/
def stops_argv (post : List t_token) : Prop :=
  post = [] ∨ ∃ t rest, post = t :: rest ∧ t.kind = TK_EOF

/-- A byte of a word that needs no quoting: not the terminator, not a
metacharacter, not a quote character. -/
def is_plain (c : Char) : Bool :=
  c != NUL && !is_metacharacter c && c != SINGLE_QUOTE_CHAR && c != DOUBLE_QUOTE_CHAR

/-- The operator symbols that C1 takes as items. -/
def simple_operators : List (List Char) :=
  [['|', '|'], ['&'], [';'], ['('], [')'], ['|']]

/-- A word item of C1: a non-empty string of plain bytes. -/
def is_word_item (w : List Char) : Prop :=
  w ≠ [] ∧ ∀ c ∈ w, is_plain c = true

/-- An item of C1: a word item or one of the operator symbols. -/
def is_item (it : List Char) : Prop :=
  is_word_item it ∨ it ∈ simple_operators

/-- The token C1 expects for an item. -/
def item_token (it : List Char) : t_token :=
  if it ∈ simple_operators then new_token (some it) TK_OP else new_token (some it) TK_WORD

/-- The items joined with single spaces. -/
def join_items : List (List Char) → List Char
  | [] => []
  | [it] => it
  | it :: next :: rest => it ++ ' ' :: join_items (next :: rest)

/-- What follows an item in the joined line: the end of the line or a space. -/
def after_item (rest : List Char) : Prop :=
  rest = [] ∨ ∃ l, rest = ' ' :: l

/-- The texts `word` can return: unquoted plain bytes and quoted parts, each
an opening quote, bytes other than that quote, and the same quote closing it.
A metacharacter is not plain and is not a quote, so in such a text it can only
stand inside a quoted part. -/
inductive word_text : List Char → Prop where
  | nil : word_text []
  | plain (c : Char) (w : List Char) : is_plain c = true → word_text w → word_text (c :: w)
  | quoted (q : Char) (body w : List Char) :
      (q = SINGLE_QUOTE_CHAR ∨ q = DOUBLE_QUOTE_CHAR) → (∀ x ∈ body, x ≠ q ∧ x ≠ NUL) →
      word_text w → word_text (q :: (body ++ q :: w))

/-- The runs of the loop of `tokenize` that end with a token list: the end
of the line, a run of blanks dropped, an operator token, a word token. -/
inductive lexes : List Char → List t_token → Prop where
  | eof (line : List Char) : deref line = NUL → lexes line [new_token none TK_EOF]
  | blank (line : List Char) (toks : List t_token) :
      is_blank (deref line) = true → lexes (line.dropWhile is_blank) toks → lexes line toks
  | op (op rest : List Char) (toks : List t_token) :
      op ∈ simple_operators → lexes rest toks →
      lexes (op ++ rest) (new_token (some op) TK_OP :: toks)
  | word (text rest : List Char) (toks : List t_token) :
      text ≠ [] → word_text text →
      (deref rest = NUL ∨ is_metacharacter (deref rest) = true) → lexes rest toks →
      lexes (text ++ rest) (new_token (some text) TK_WORD :: toks)

/-- The line `b0 ++ t1 ++ b1 ++ ... ++ tn ++ bn` made of the texts
`t1 .. tn` and of the strings `b0 .. bn` around them. -/
def weave : List (List Char) → List (List Char) → List Char
  | [], _ => []
  | b :: _, [] => b
  | b :: bs, t :: ts => b ++ t ++ weave bs ts

/-- The states of the three-state scanner of C19. -/
inductive scan_state where
  | bare
  | in_single_quote
  | in_double_quote
deriving DecidableEq

/-- What the scanner of C19 predicts for a line. -/
inductive scan_outcome where
  | token_list
  | unexpected_character
  | unclosed_single_quote
  | unclosed_double_quote
deriving DecidableEq

/-- The three-state scanner of C19, written from the words of the claim: in
the bare state `<` and `>` are unexpected and a quote opens its quote state;
in a quote state the same quote closes it and every other byte is passed; at
the end of the line the state decides. -/
def scan : scan_state → List Char → scan_outcome
  | .bare, [] => .token_list
  | .in_single_quote, [] => .unclosed_single_quote
  | .in_double_quote, [] => .unclosed_double_quote
  | .bare, c :: cs =>
      if c == '<' || c == '>' then .unexpected_character
      else if c == SINGLE_QUOTE_CHAR then scan .in_single_quote cs
      else if c == DOUBLE_QUOTE_CHAR then scan .in_double_quote cs
      else scan .bare cs
  | .in_single_quote, c :: cs =>
      if c == SINGLE_QUOTE_CHAR then scan .bare cs else scan .in_single_quote cs
  | .in_double_quote, c :: cs =>
      if c == DOUBLE_QUOTE_CHAR then scan .bare cs else scan .in_double_quote cs

/-- The outcome of a result of `tokenize`, in the terms of the scanner; the
two failures the scanner does not know have none. -/
def outcome_of : Except TokError (List t_token) → Option scan_outcome
  | .ok _ => some .token_list
  | .error Unexpected_character => some .unexpected_character
  | .error Unclosed_single_quote => some .unclosed_single_quote
  | .error Unclosed_double_quote => some .unclosed_double_quote
  | .error _ => none

/-- The positions the loop of `tokenize` reaches on a line: the line itself,
and from a reached position that is not the end, the cursor after the blanks,
after the operator or after the word that the turn of the loop consumes. -/
inductive loop_reaches (line : List Char) : List Char → Prop where
  | start : loop_reaches line line
  | blank (cur : List Char) :
      loop_reaches line cur → deref cur ≠ NUL → (consume_blank cur).1 = true →
      loop_reaches line (consume_blank cur).2
  | operator (cur rest : List Char) (tok : t_token) :
      loop_reaches line cur → deref cur ≠ NUL → (consume_blank cur).1 = false →
      is_operator cur = true → operator cur = .ok (tok, rest) → loop_reaches line rest
  | word (cur rest : List Char) (tok : t_token) :
      loop_reaches line cur → deref cur ≠ NUL → (consume_blank cur).1 = false →
      is_operator cur = false → is_word cur = true → word cur = .ok (tok, rest) →
      loop_reaches line rest

/-! ## Reading the cursor and classifying a byte -/

theorem deref_nil : deref [] = NUL := rfl

theorem deref_cons (c : Char) (cs : List Char) : deref (c :: cs) = c := rfl

theorem deref_ne_NUL {line : List Char} (h : deref line ≠ NUL) :
    ∃ c cs, line = c :: cs ∧ c ≠ NUL := by
  cases line with
  | nil => exact absurd rfl h
  | cons c cs => exact ⟨c, cs, rfl, h⟩

theorem is_blank_iff (c : Char) :
    is_blank c = true ↔ c = ' ' ∨ c = '\t' ∨ c = '\n' := by
  simp [is_blank, or_assoc]

theorem is_metacharacter_iff (c : Char) :
    is_metacharacter c = true ↔
      c = '|' ∨ c = '&' ∨ c = ';' ∨ c = '(' ∨ c = ')' ∨ c = '<' ∨ c = '>' ∨
        c = ' ' ∨ c = '\t' ∨ c = '\n' := by
  simp [is_metacharacter, metacharacters, NUL]
  rintro (h | h | h | h | h | h | h | h | h | h) <;> subst h <;> decide

theorem is_operator_nil : is_operator [] = false := by decide

theorem is_operator_cons (c : Char) (cs : List Char) :
    is_operator (c :: cs) = true ↔
      c = '|' ∨ c = '&' ∨ c = ';' ∨ c = '(' ∨ c = ')' ∨ c = '\n' := by
  simp [is_operator, operators, startswith, strlen, NUL]
  tauto

theorem is_word_cons (c : Char) (cs : List Char) :
    is_word (c :: cs) = true ↔ c ≠ NUL ∧ is_metacharacter c = false := by
  simp [is_word, deref_cons]

theorem is_blank_ne_NUL {c : Char} (h : is_blank c = true) : c ≠ NUL := by
  rcases (is_blank_iff c).1 h with h | h | h <;> subst h <;> decide

theorem is_blank_metacharacter {c : Char} (h : is_blank c = true) :
    is_metacharacter c = true := by
  rw [is_metacharacter_iff]
  rcases (is_blank_iff c).1 h with h | h | h <;> simp [h]

/-! ## Blanks -/

theorem skip_blank_all (line : List Char) (h : ∀ c ∈ line, is_blank c = true) :
    skip_blank line = [] := by
  induction line with
  | nil => rfl
  | cons c cs ih =>
      have hc : is_blank c = true := h c (List.mem_cons_self _ _)
      have hn : c ≠ NUL := is_blank_ne_NUL hc
      simp [skip_blank, hc, hn]
      exact ih (fun d hd => h d (List.mem_cons_of_mem _ hd))

theorem tokenize_loop_nil (fuel : Nat) :
    tokenize_loop (fuel + 1) [] = .ok [new_token none TK_EOF] := by
  simp [tokenize_loop, deref_nil]

/-- C5: a line made only of blanks (space, tab, newline; possibly none at
all) tokenizes to the single token `END_OF_INPUT`. -/
theorem tokenize_blank_line (line : List Char) (h : ∀ c ∈ line, is_blank c = true) :
    tokenize line = .ok [new_token none TK_EOF] := by
  cases line with
  | nil => exact tokenize_loop_nil 0
  | cons c cs =>
      have hc : is_blank c = true := h c (List.mem_cons_self _ _)
      have hn : c ≠ NUL := is_blank_ne_NUL hc
      have hs : skip_blank (c :: cs) = [] := skip_blank_all _ h
      simp only [tokenize, List.length_cons]
      rw [tokenize_loop]
      simp [deref_cons, hn, consume_blank, hc, hs, tokenize_loop_nil]

theorem tokenize_blank_line_witness :
    (∀ c ∈ [' ', '\n', '\t', '\n'], is_blank c = true) ∧
      tokenize [' ', '\n', '\t', '\n'] = .ok [new_token none TK_EOF] :=
  ⟨by decide, tokenize_blank_line _ (by decide)⟩

/-! ## The three classification tests -/

/-- C10, as stated, fails: for `<` none of the three tests holds, and for a
newline two of them hold. -/
theorem classification_not_partition :
    ¬ exactly_one (is_blank '<') (is_operator ['<']) (is_word ['<']) ∧
      ¬ exactly_one (is_blank '\n') (is_operator ['\n']) (is_word ['\n']) := by
  unfold exactly_one
  decide

/-- C10, amended: for every non-null character other than newline, `<` and
`>`, and every string that starts with it, exactly one of `is_blank`,
`is_operator`, `is_word` holds. -/
theorem classification_partition (c : Char) (cs : List Char) (h0 : c ≠ NUL)
    (hn : c ≠ '\n') (hl : c ≠ '<') (hg : c ≠ '>') :
    exactly_one (is_blank c) (is_operator (c :: cs)) (is_word (c :: cs)) := by
  unfold exactly_one
  by_cases hb : is_blank c = true
  · left
    refine ⟨hb, ?_, ?_⟩
    · rw [Bool.eq_false_iff]
      intro ho
      rcases (is_blank_iff c).1 hb with h | h | h <;>
        rcases (is_operator_cons c cs).1 ho with k | k | k | k | k | k <;>
        first | exact hn k | exact hn h | (rw [h] at k; revert k; decide)
    · rw [Bool.eq_false_iff]
      intro hw
      have := ((is_word_cons c cs).1 hw).2
      rw [is_blank_metacharacter hb] at this
      exact Bool.noConfusion this
  · right
    by_cases ho : is_operator (c :: cs) = true
    · left
      refine ⟨by simpa using hb, ho, ?_⟩
      rw [Bool.eq_false_iff]
      intro hw
      have hm := ((is_word_cons c cs).1 hw).2
      have : is_metacharacter c = true := by
        rw [is_metacharacter_iff]
        rcases (is_operator_cons c cs).1 ho with k | k | k | k | k | k <;> simp [k]
      rw [this] at hm
      exact Bool.noConfusion hm
    · right
      refine ⟨by simpa using hb, by simpa using ho, ?_⟩
      rw [is_word_cons]
      refine ⟨h0, ?_⟩
      rw [Bool.eq_false_iff]
      intro hm
      rcases (is_metacharacter_iff c).1 hm with k | k | k | k | k | k | k | k | k | k
      · exact ho ((is_operator_cons c cs).2 (by simp [k]))
      · exact ho ((is_operator_cons c cs).2 (by simp [k]))
      · exact ho ((is_operator_cons c cs).2 (by simp [k]))
      · exact ho ((is_operator_cons c cs).2 (by simp [k]))
      · exact ho ((is_operator_cons c cs).2 (by simp [k]))
      · exact hl k
      · exact hg k
      · exact hb ((is_blank_iff c).2 (by simp [k]))
      · exact hb ((is_blank_iff c).2 (by simp [k]))
      · exact hn k

theorem classification_partition_witness :
    ('&' ≠ NUL ∧ '&' ≠ '\n' ∧ '&' ≠ '<' ∧ '&' ≠ '>') ∧
      exactly_one (is_blank '&') (is_operator ['&', '&', 'x']) (is_word ['&', '&', 'x']) :=
  ⟨by decide,
    classification_partition '&' ['&', 'x'] (by decide) (by decide) (by decide) (by decide)⟩

/-! ## The kinds of the tokens of a list -/

theorem operator_kind {line rest : List Char} {tok : t_token}
    (h : operator line = .ok (tok, rest)) : tok.kind = TK_OP := by
  unfold operator at h
  split at h
  · injection h with h
    injection h with h1 h2
    rw [← h1]
    rfl
  · exact Except.noConfusion h

theorem word_kind {line rest : List Char} {tok : t_token}
    (h : word line = .ok (tok, rest)) : tok.kind = TK_WORD := by
  unfold word at h
  split at h
  · exact Except.noConfusion h
  · injection h with h
    injection h with h1 h2
    rw [← h1]
    rfl

theorem tokenize_loop_shape (fuel : Nat) :
    ∀ (line : List Char) (toks : List t_token), tokenize_loop fuel line = .ok toks →
      ∃ pre, toks = pre ++ [new_token none TK_EOF] ∧ ∀ t ∈ pre, t.kind ≠ TK_EOF := by
  induction fuel with
  | zero =>
      intro line toks h
      exact Except.noConfusion h
  | succ fuel ih =>
      intro line toks h
      have cons_case : ∀ (tok : t_token) (rest : List Char), tok.kind ≠ TK_EOF →
          (match tokenize_loop fuel rest with
            | .error e => .error e
            | .ok l => .ok (tok :: l)) = Except.ok toks →
          ∃ pre, toks = pre ++ [new_token none TK_EOF] ∧ ∀ t ∈ pre, t.kind ≠ TK_EOF := by
        intro tok rest hk h
        split at h
        · exact Except.noConfusion h
        · rename_i l hl
          obtain ⟨pre, hpre, hall⟩ := ih rest l hl
          injection h with h
          refine ⟨tok :: pre, by rw [← h, hpre]; rfl, ?_⟩
          intro t ht
          rcases List.mem_cons.1 ht with ht | ht
          · rw [ht]; exact hk
          · exact hall t ht
      rw [tokenize_loop] at h
      split at h
      · split at h
        · exact ih _ _ h
        · split at h
          · split at h
            · exact Except.noConfusion h
            · rename_i tok rest hop
              exact cons_case tok rest (by rw [operator_kind hop]; decide) h
          · split at h
            · split at h
              · exact Except.noConfusion h
              · rename_i tok rest hw
                exact cons_case tok rest (by rw [word_kind hw]; decide) h
            · exact Except.noConfusion h
      · injection h with h
        exact ⟨[], by rw [← h]; rfl, by simp⟩

/-- C4: when `tokenize` returns a token list, its last token has kind
`END_OF_INPUT` and no other token of the list has that kind. -/
theorem tokenize_last_is_unique_eof (line : List Char) (toks : List t_token)
    (h : tokenize line = .ok toks) :
    toks.getLast?.map t_token.kind = some TK_EOF ∧ ∀ t ∈ toks.dropLast, t.kind ≠ TK_EOF := by
  obtain ⟨pre, hpre, hall⟩ := tokenize_loop_shape _ line toks h
  subst hpre
  constructor
  · simp [new_token]
  · simpa using hall

theorem tokenize_last_is_unique_eof_witness :
    tokenize ['a', ' ', '|', 'b'] =
        .ok [new_token (some ['a']) TK_WORD, new_token (some ['|']) TK_OP,
          new_token (some ['b']) TK_WORD, new_token none TK_EOF] ∧
      ([new_token (some ['a']) TK_WORD, new_token (some ['|']) TK_OP,
          new_token (some ['b']) TK_WORD, new_token none TK_EOF].getLast?.map
            t_token.kind = some TK_EOF ∧
        ∀ t ∈ [new_token (some ['a']) TK_WORD, new_token (some ['|']) TK_OP,
          new_token (some ['b']) TK_WORD, new_token none TK_EOF].dropLast,
            t.kind ≠ TK_EOF) :=
  ⟨by decide, tokenize_last_is_unique_eof ['a', ' ', '|', 'b'] _ (by decide)⟩

/-! ## Evaluations at the inputs where the code departs from its intent -/

/-- C8: on the line `&&` the scan takes the first table entry `&`, not the
longest one, so tokenize produces two `&` operator tokens and not the single
token `&&`; likewise `;;` gives two `;` tokens. -/
theorem tokenize_double_ampersand :
    operator ['&', '&'] = .ok (new_token (some ['&']) TK_OP, ['&']) ∧
      tokenize ['&', '&'] =
        .ok [new_token (some ['&']) TK_OP, new_token (some ['&']) TK_OP,
          new_token none TK_EOF] ∧
      tokenize [';', ';'] =
        .ok [new_token (some [';']) TK_OP, new_token (some [';']) TK_OP,
          new_token none TK_EOF] := by
  decide

/-- C7: for a token list that starts with `END_OF_INPUT` the code returns the
`NULL` pointer, not a block holding the sentinel. -/
theorem token_list_to_argv_empty (rest : List t_token) :
    token_list_to_argv (new_token none TK_EOF :: rest) = some none := by
  simp [token_list_to_argv, tail_recursive, new_token]

/-! ## The cursor only moves forward -/

theorem skip_blank_suffix (line : List Char) : skip_blank line <:+ line := by
  induction line with
  | nil => exact List.suffix_refl _
  | cons c cs ih =>
      unfold skip_blank
      split
      · exact ih.trans (List.suffix_cons c cs)
      · exact List.suffix_refl _

theorem consume_blank_suffix (line : List Char) : (consume_blank line).2 <:+ line := by
  unfold consume_blank
  split
  · exact skip_blank_suffix line
  · exact List.suffix_refl _

theorem operator_suffix {line rest : List Char} {tok : t_token}
    (h : operator line = .ok (tok, rest)) : rest <:+ line := by
  unfold operator at h
  split at h
  · injection h with h
    injection h with h1 h2
    rw [← h2]
    exact List.drop_suffix _ _
  · exact Except.noConfusion h

theorem until_quote_suffix (q : Char) (err : TokError) :
    ∀ (line l : List Char), until_quote q err line = .ok l → l <:+ line := by
  intro line
  induction line with
  | nil =>
      intro l h
      unfold until_quote at h
      split at h
      · exact Except.noConfusion h
      · injection h with h
        rw [← h]
  | cons c cs ih =>
      intro l h
      unfold until_quote at h
      split at h
      · split at h
        · exact Except.noConfusion h
        · exact (ih l h).trans (List.suffix_cons c cs)
      · injection h with h
        rw [← h]

theorem word_loop_suffix (fuel : Nat) :
    ∀ (line l : List Char), word_loop fuel line = .ok l → l <:+ line := by
  induction fuel with
  | zero =>
      intro line l h
      exact Except.noConfusion h
  | succ fuel ih =>
      intro line l h
      have quoted : ∀ (q : Char) (err : TokError),
          (match until_quote q err line.tail with
            | .error e => .error e
            | .ok l => word_loop fuel l.tail) = Except.ok l → l <:+ line := by
        intro q err h
        split at h
        · exact Except.noConfusion h
        · rename_i m hm
          exact ((ih _ _ h).trans (List.tail_suffix m)).trans
            ((until_quote_suffix q err _ _ hm).trans (List.tail_suffix line))
      rw [word_loop] at h
      split at h
      · split at h
        · exact quoted _ _ h
        · split at h
          · exact quoted _ _ h
          · exact (ih _ _ h).trans (List.tail_suffix line)
      · injection h with h
        rw [← h]

theorem word_suffix {line rest : List Char} {tok : t_token}
    (h : word line = .ok (tok, rest)) : rest <:+ line := by
  unfold word at h
  split at h
  · exact Except.noConfusion h
  · rename_i l hl
    injection h with h
    injection h with h1 h2
    rw [← h2]
    exact word_loop_suffix _ _ _ hl

/-! ## The failures each scanner can raise -/

theorem operator_error {line : List Char} {e : TokError}
    (h : operator line = .error e) : e = Unexpected_operator := by
  unfold operator at h
  split at h
  · exact Except.noConfusion h
  · injection h with h
    exact h.symm

theorem until_quote_error (q : Char) (err : TokError) :
    ∀ (line : List Char) (e : TokError), until_quote q err line = .error e → e = err := by
  intro line
  induction line with
  | nil =>
      intro e h
      unfold until_quote at h
      split at h
      · injection h with h
        exact h.symm
      · exact Except.noConfusion h
  | cons c cs ih =>
      intro e h
      unfold until_quote at h
      split at h
      · split at h
        · injection h with h
          exact h.symm
        · exact ih e h
      · exact Except.noConfusion h

theorem word_loop_error (fuel : Nat) :
    ∀ (line : List Char) (e : TokError), word_loop fuel line = .error e →
      e = Unclosed_single_quote ∨ e = Unclosed_double_quote ∨ e = out_of_fuel := by
  induction fuel with
  | zero =>
      intro line e h
      injection h with h
      exact Or.inr (Or.inr h.symm)
  | succ fuel ih =>
      intro line e h
      rw [word_loop] at h
      split at h
      · split at h
        · split at h
          · rename_i e1 he
            injection h with h
            rw [← h]
            exact Or.inl (until_quote_error _ _ _ _ he)
          · exact ih _ _ h
        · split at h
          · split at h
            · rename_i e1 he
              injection h with h
              rw [← h]
              exact Or.inr (Or.inl (until_quote_error _ _ _ _ he))
            · exact ih _ _ h
          · exact ih _ _ h
      · exact Except.noConfusion h

theorem word_error {line : List Char} {e : TokError} (h : word line = .error e) :
    e = Unclosed_single_quote ∨ e = Unclosed_double_quote ∨ e = out_of_fuel := by
  unfold word at h
  split at h
  · rename_i e1 he
    injection h with h
    rw [← h]
    exact word_loop_error _ _ _ he
  · exact Except.noConfusion h

/-- Where the dispatch of `tokenize` finds neither a blank, nor an operator,
nor a word, the cursor is at `<` or at `>`. -/
theorem unclassified_is_redirect (c : Char) (cs : List Char) (h0 : c ≠ NUL)
    (hb : is_blank c = false) (ho : is_operator (c :: cs) = false)
    (hw : is_word (c :: cs) = false) : c = '<' ∨ c = '>' := by
  have hm : is_metacharacter c = true := by
    by_contra hm
    have : is_word (c :: cs) = true := (is_word_cons c cs).2 ⟨h0, by simpa using hm⟩
    rw [hw] at this
    exact Bool.noConfusion this
  have hb' : ¬ is_blank c = true := by simp [hb]
  have ho' : ¬ is_operator (c :: cs) = true := by simp [ho]
  rw [is_blank_iff] at hb'
  rw [is_operator_cons] at ho'
  rcases (is_metacharacter_iff c).1 hm with k | k | k | k | k | k | k | k | k | k
  · exact absurd (by simp [k]) ho'
  · exact absurd (by simp [k]) ho'
  · exact absurd (by simp [k]) ho'
  · exact absurd (by simp [k]) ho'
  · exact absurd (by simp [k]) ho'
  · exact Or.inl k
  · exact Or.inr k
  · exact absurd (by simp [k]) hb'
  · exact absurd (by simp [k]) hb'
  · exact absurd (by simp [k]) hb'

/-- C9, as stated, fails: on the line `<` tokenize fails with "Unexpected
character". -/
theorem tokenize_unexpected_character_reachable :
    tokenize ['<'] = .error Unexpected_character := by
  decide

/-! ## The argument vector -/

theorem strdup_of_no_NUL (w : List Char) (h : NUL ∉ w) : strdup w = w := by
  unfold strdup
  rw [List.takeWhile_eq_self_iff]
  intro c hc
  have : c ≠ NUL := fun k => h (k ▸ hc)
  simpa using this

/-- One step of `tail_recursive` on a block that holds `acc` and the
sentinel: the block grows by one slot and holds the new text before the
sentinel. -/
theorem tail_recursive_grow (acc : List (Option (List Char))) (w : List Char) :
    ((realloc (some (acc ++ [none])) (acc.length + 2)).set acc.length (some w)).set
      (acc.length + 1) none = (acc ++ [some w]) ++ [none] := by
  have h1 : List.take (acc.length + 2) (acc ++ [none]) =
      acc ++ [(none : Option (List Char))] := by
    apply List.take_of_length_le
    simp
  simp [realloc, h1]

theorem tail_recursive_stop (post : List t_token) (h : stops_argv post) (nargs : Nat)
    (argv : argv_t) : tail_recursive post nargs argv = some argv := by
  rcases h with h | ⟨t, rest, h, hk⟩
  · subst h
    rfl
  · subst h
    simp [tail_recursive, hk]

theorem tail_recursive_words (post : List t_token) (hpost : stops_argv post) :
    ∀ (pre : List t_token) (acc : List (Option (List Char))),
      (∀ t ∈ pre, is_text_token t) →
      tail_recursive (pre ++ post) acc.length (some (acc ++ [none])) =
        some (some (acc ++ pre.map t_token.word ++ [none])) := by
  intro pre
  induction pre with
  | nil =>
      intro acc _
      simpa using tail_recursive_stop post hpost acc.length (some (acc ++ [none]))
  | cons t pre ih =>
      intro acc h
      obtain ⟨hk, w, hw, hnul⟩ := h t (List.mem_cons_self _ _)
      have ih2 := ih (acc ++ [some w]) (fun u hu => h u (List.mem_cons_of_mem _ hu))
      simp only [List.cons_append, tail_recursive, hk, if_false, hw]
      rw [strdup_of_no_NUL w hnul, tail_recursive_grow]
      rw [List.length_append, List.length_singleton] at ih2
      refine ih2.trans ?_
      simp [hw]

/-- C6: for a token list with N ≥ 1 word/operator tokens (each with a text)
before the end marker, or before the end of the list, `token_list_to_argv`
returns a block of N + 1 slots: the N texts in list order, then the null
sentinel; what follows the end marker is not included. -/
theorem token_list_to_argv_words (pre post : List t_token) (hne : pre ≠ [])
    (hpre : ∀ t ∈ pre, is_text_token t) (hpost : stops_argv post) :
    token_list_to_argv (pre ++ post) = some (some (pre.map t_token.word ++ [none])) := by
  cases pre with
  | nil => exact absurd rfl hne
  | cons t pre =>
      obtain ⟨hk, w, hw, hnul⟩ := hpre t (List.mem_cons_self _ _)
      have h := tail_recursive_words post hpost pre [some w]
        (fun u hu => hpre u (List.mem_cons_of_mem _ hu))
      simp only [token_list_to_argv, List.cons_append, tail_recursive, hk, if_false, hw]
      rw [strdup_of_no_NUL w hnul]
      have h0 : ((realloc none (0 + 2)).set 0 (some w)).set (0 + 1) none =
          [some w] ++ [none] := by
        simp [realloc, List.replicate]
      rw [h0]
      simp only [List.length_singleton] at h
      refine h.trans ?_
      simp [hw]

theorem token_list_to_argv_words_witness :
    ([new_token (some ['l', 's']) TK_WORD, new_token (some ['|']) TK_OP] ≠ [] ∧
      (∀ t ∈ [new_token (some ['l', 's']) TK_WORD, new_token (some ['|']) TK_OP],
        is_text_token t) ∧
      stops_argv [new_token none TK_EOF, new_token (some ['x']) TK_WORD]) ∧
    token_list_to_argv
        ([new_token (some ['l', 's']) TK_WORD, new_token (some ['|']) TK_OP] ++
          [new_token none TK_EOF, new_token (some ['x']) TK_WORD]) =
      some (some ([new_token (some ['l', 's']) TK_WORD, new_token (some ['|']) TK_OP].map
        t_token.word ++ [none])) :=
  have h1 : [new_token (some ['l', 's']) TK_WORD, new_token (some ['|']) TK_OP] ≠ [] := by
    decide
  have h2 : ∀ t ∈ [new_token (some ['l', 's']) TK_WORD, new_token (some ['|']) TK_OP],
      is_text_token t := by
    intro t ht
    simp only [List.mem_cons, List.mem_singleton, List.not_mem_nil, or_false] at ht
    rcases ht with ht | ht <;> subst ht
    · exact ⟨by decide, _, rfl, by decide⟩
    · exact ⟨by decide, _, rfl, by decide⟩
  have h3 : stops_argv [new_token none TK_EOF, new_token (some ['x']) TK_WORD] :=
    Or.inr ⟨_, _, rfl, rfl⟩
  ⟨⟨h1, h2, h3⟩, token_list_to_argv_words _ _ h1 h2 h3⟩

/-! ## Scanning a word -/

theorem is_plain_iff (c : Char) :
    is_plain c = true ↔
      c ≠ NUL ∧ is_metacharacter c = false ∧ c ≠ SINGLE_QUOTE_CHAR ∧ c ≠ DOUBLE_QUOTE_CHAR := by
  simp [is_plain, and_assoc]

theorem not_blank_of_not_metacharacter {c : Char} (h : is_metacharacter c = false) :
    is_blank c = false := by
  rw [Bool.eq_false_iff]
  intro hb
  rw [is_blank_metacharacter hb] at h
  exact Bool.noConfusion h

theorem not_operator_of_not_metacharacter {c : Char} (cs : List Char)
    (h : is_metacharacter c = false) : is_operator (c :: cs) = false := by
  rw [Bool.eq_false_iff]
  intro ho
  have : is_metacharacter c = true := by
    rw [is_metacharacter_iff]
    rcases (is_operator_cons c cs).1 ho with k | k | k | k | k | k <;> simp [k]
  rw [this] at h
  exact Bool.noConfusion h

theorem quote_not_metacharacter {q : Char}
    (hq : q = SINGLE_QUOTE_CHAR ∨ q = DOUBLE_QUOTE_CHAR) :
    q ≠ NUL ∧ is_metacharacter q = false := by
  rcases hq with h | h <;> subst h <;> decide

/-- The loop of `word` passes over unquoted plain bytes one at a time. -/
theorem word_loop_plain (a : List Char) (ha : ∀ c ∈ a, is_plain c = true) :
    ∀ (fuel : Nat) (rest : List Char),
      word_loop (fuel + a.length) (a ++ rest) = word_loop fuel rest := by
  induction a with
  | nil =>
      intro fuel rest
      rfl
  | cons c cs ih =>
      intro fuel rest
      obtain ⟨h0, hm, hs, hd⟩ := (is_plain_iff c).1 (ha c (List.mem_cons_self _ _))
      have := ih (fun d hd => ha d (List.mem_cons_of_mem _ hd)) fuel rest
      rw [List.length_cons, ← Nat.add_assoc, List.cons_append, word_loop]
      simp [deref_cons, h0, hm, hs, hd, this]

/-- The loop of `word` ends at the terminator and at a metacharacter. -/
theorem word_loop_stop (fuel : Nat) (rest : List Char)
    (h : deref rest = NUL ∨ is_metacharacter (deref rest) = true) :
    word_loop (fuel + 1) rest = .ok rest := by
  rw [word_loop]
  rcases h with h | h <;> simp [h]

theorem until_quote_closed (q : Char) (err : TokError) (c : List Char) :
    ∀ (b : List Char), (∀ x ∈ b, x ≠ q ∧ x ≠ NUL) →
      until_quote q err (b ++ q :: c) = .ok (q :: c) := by
  intro b
  induction b with
  | nil =>
      intro _
      simp [until_quote]
  | cons x xs ih =>
      intro h
      obtain ⟨h1, h2⟩ := h x (List.mem_cons_self _ _)
      rw [List.cons_append, until_quote]
      simp [h1, h2]
      exact ih (fun d hd => h d (List.mem_cons_of_mem _ hd))

theorem until_quote_unclosed (q : Char) (err : TokError) (hq : q ≠ NUL) :
    ∀ (s : List Char), (∀ x ∈ s, x ≠ q) → until_quote q err s = .error err := by
  intro s
  induction s with
  | nil =>
      intro _
      simp [until_quote, Ne.symm hq]
  | cons x xs ih =>
      intro h
      have h1 := h x (List.mem_cons_self _ _)
      rw [until_quote]
      simp [h1]
      intro _
      exact ih (fun d hd => h d (List.mem_cons_of_mem _ hd))

/-- One turn of the loop of `word` at an opening quote whose closing quote
is found at `m`. -/
theorem word_loop_quoted (q : Char) (hq : q = SINGLE_QUOTE_CHAR ∨ q = DOUBLE_QUOTE_CHAR)
    (l m : List Char) (h : ∀ err, until_quote q err l = .ok m) (fuel : Nat) :
    word_loop (fuel + 1) (q :: l) = word_loop fuel m.tail := by
  rw [word_loop]
  rcases hq with k | k <;> subst k
  · have : SINGLE_QUOTE_CHAR ≠ NUL ∧ is_metacharacter SINGLE_QUOTE_CHAR = false := by decide
    simp [deref_cons, this.1, this.2, h]
  · have : DOUBLE_QUOTE_CHAR ≠ NUL ∧ is_metacharacter DOUBLE_QUOTE_CHAR = false ∧
        DOUBLE_QUOTE_CHAR ≠ SINGLE_QUOTE_CHAR := by decide
    simp [deref_cons, this.1, this.2.1, this.2.2, h]

theorem strndup_slice (a rest : List Char) (ha : NUL ∉ a) :
    strndup (a ++ rest) ((a ++ rest).length - rest.length) = a := by
  unfold strndup
  rw [List.length_append, Nat.add_sub_cancel, List.take_left, List.takeWhile_eq_self_iff]
  intro c hc
  have : c ≠ NUL := fun k => ha (k ▸ hc)
  simpa using this

/-- The dispatch of `tokenize` at a byte that is neither the terminator nor a
metacharacter: a word is scanned. -/
theorem tokenize_loop_word_start (fuel : Nat) (c : Char) (cs : List Char) (h0 : c ≠ NUL)
    (hm : is_metacharacter c = false) :
    tokenize_loop (fuel + 1) (c :: cs) =
      match word (c :: cs) with
      | .error e => .error e
      | .ok (tok, rest) =>
          match tokenize_loop fuel rest with
          | .error e => .error e
          | .ok toks => .ok (tok :: toks) := by
  have hb := not_blank_of_not_metacharacter hm
  have ho := not_operator_of_not_metacharacter cs hm
  have hw : is_word (c :: cs) = true := (is_word_cons c cs).2 ⟨h0, hm⟩
  rw [tokenize_loop]
  simp [deref_cons, h0, consume_blank, hb, ho, hw]

/-! ## Quoted words -/

/-- The first byte of `a ++ q :: l`, for plain `a` and a quote `q`, starts a
word. -/
theorem plain_then_quote_head (a : List Char) (ha : ∀ c ∈ a, is_plain c = true) (q : Char)
    (hq : q = SINGLE_QUOTE_CHAR ∨ q = DOUBLE_QUOTE_CHAR) (l : List Char) :
    ∃ c cs, a ++ q :: l = c :: cs ∧ c ≠ NUL ∧ is_metacharacter c = false := by
  cases a with
  | nil => exact ⟨q, l, rfl, quote_not_metacharacter hq⟩
  | cons c cs =>
      obtain ⟨h0, hm, _, _⟩ := (is_plain_iff c).1 (ha c (List.mem_cons_self _ _))
      exact ⟨c, cs ++ q :: l, rfl, h0, hm⟩

theorem word_loop_quoted_word (q : Char)
    (hq : q = SINGLE_QUOTE_CHAR ∨ q = DOUBLE_QUOTE_CHAR) (a b c : List Char)
    (ha : ∀ x ∈ a, is_plain x = true) (hb : ∀ x ∈ b, x ≠ q ∧ x ≠ NUL)
    (hc : ∀ x ∈ c, is_plain x = true) :
    word_loop ((a ++ q :: (b ++ q :: c)).length + 1) (a ++ q :: (b ++ q :: c)) = .ok [] := by
  have hlen : (a ++ q :: (b ++ q :: c)).length + 1 = ((b.length + 2 + c.length) + 1) + a.length := by
    simp only [List.length_append, List.length_cons]
    omega
  rw [hlen, word_loop_plain a ha,
    word_loop_quoted q hq (b ++ q :: c) (q :: c) (fun err => until_quote_closed q err c b hb)]
  have := word_loop_plain c hc (b.length + 2) []
  rw [List.append_nil] at this
  rw [List.tail_cons, this]
  exact word_loop_stop _ [] (Or.inl rfl)

/-- C2: a word with one quoted part, `a ++ q ++ b ++ q ++ c` with `a` and `c`
free of metacharacters and quotes and `b` free of the quote `q`, is a single
`WORD` token whose text is the whole line, quotes included. -/
theorem tokenize_quoted_word (q : Char)
    (hq : q = SINGLE_QUOTE_CHAR ∨ q = DOUBLE_QUOTE_CHAR) (a b c : List Char)
    (ha : ∀ x ∈ a, is_plain x = true) (hb : ∀ x ∈ b, x ≠ q ∧ x ≠ NUL)
    (hc : ∀ x ∈ c, is_plain x = true) :
    tokenize (a ++ q :: (b ++ q :: c)) =
      .ok [new_token (some (a ++ q :: (b ++ q :: c))) TK_WORD, new_token none TK_EOF] := by
  have hloop := word_loop_quoted_word q hq a b c ha hb hc
  have hnul : NUL ∉ a ++ q :: (b ++ q :: c) := by
    intro hmem
    have hqn := (quote_not_metacharacter hq).1
    simp only [List.mem_append, List.mem_cons] at hmem
    rcases hmem with k | k | k | k | k
    · exact ((is_plain_iff _).1 (ha _ k)).1 rfl
    · exact hqn k.symm
    · exact (hb _ k).2 rfl
    · exact hqn k.symm
    · exact ((is_plain_iff _).1 (hc _ k)).1 rfl
  have hdup := strndup_slice (a ++ q :: (b ++ q :: c)) [] hnul
  rw [List.append_nil] at hdup
  have hword : word (a ++ q :: (b ++ q :: c)) =
      .ok (new_token (some (a ++ q :: (b ++ q :: c))) TK_WORD, []) := by
    unfold word
    rw [hloop]
    simp only [hdup]
  obtain ⟨x, xs, hx, h0, hm⟩ := plain_then_quote_head a ha q hq (b ++ q :: c)
  unfold tokenize
  rw [hx] at hword ⊢
  rw [List.length_cons, tokenize_loop_word_start _ x xs h0 hm, hword]
  simp only [tokenize_loop_nil]

theorem tokenize_quoted_word_witness :
    ((∀ x ∈ ['a', 'b', 'c'], x ≠ SINGLE_QUOTE_CHAR ∧ x ≠ NUL) ∧
      (∀ x ∈ ['a', 'b', 'c'], x ≠ DOUBLE_QUOTE_CHAR ∧ x ≠ NUL) ∧
      (∀ x ∈ ['a', 'b'], is_plain x = true) ∧
      (∀ x ∈ ['c', 'd'], x ≠ SINGLE_QUOTE_CHAR ∧ x ≠ NUL) ∧
      (∀ x ∈ ['e', 'f'], is_plain x = true)) ∧
    tokenize [SINGLE_QUOTE_CHAR, 'a', 'b', 'c', SINGLE_QUOTE_CHAR] =
      .ok [new_token (some [SINGLE_QUOTE_CHAR, 'a', 'b', 'c', SINGLE_QUOTE_CHAR]) TK_WORD,
        new_token none TK_EOF] ∧
    tokenize [DOUBLE_QUOTE_CHAR, 'a', 'b', 'c', DOUBLE_QUOTE_CHAR] =
      .ok [new_token (some [DOUBLE_QUOTE_CHAR, 'a', 'b', 'c', DOUBLE_QUOTE_CHAR]) TK_WORD,
        new_token none TK_EOF] ∧
    tokenize ['a', 'b', SINGLE_QUOTE_CHAR, 'c', 'd', SINGLE_QUOTE_CHAR, 'e', 'f'] =
      .ok [new_token
          (some ['a', 'b', SINGLE_QUOTE_CHAR, 'c', 'd', SINGLE_QUOTE_CHAR, 'e', 'f']) TK_WORD,
        new_token none TK_EOF] :=
  ⟨by decide,
    tokenize_quoted_word SINGLE_QUOTE_CHAR (Or.inl rfl) [] ['a', 'b', 'c'] []
      (by decide) (by decide) (by decide),
    tokenize_quoted_word DOUBLE_QUOTE_CHAR (Or.inr rfl) [] ['a', 'b', 'c'] []
      (by decide) (by decide) (by decide),
    tokenize_quoted_word SINGLE_QUOTE_CHAR (Or.inl rfl) ['a', 'b'] ['c', 'd'] ['e', 'f']
      (by decide) (by decide) (by decide)⟩

/-! ## Unclosed quotes -/

theorem word_unclosed (q : Char) (err : TokError) (a s : List Char)
    (ha : ∀ x ∈ a, is_plain x = true) (hs : ∀ x ∈ s, x ≠ q)
    (hstep : ∀ fuel, word_loop (fuel + 1) (q :: s) =
      match until_quote q err s with
      | .error e => .error e
      | .ok l => word_loop fuel l.tail)
    (hq : q ≠ NUL) : word (a ++ q :: s) = .error err := by
  have hlen : (a ++ q :: s).length + 1 = (s.length + 1 + 1) + a.length := by
    simp only [List.length_append, List.length_cons]
    omega
  unfold word
  rw [hlen, word_loop_plain a ha, hstep, until_quote_unclosed q err hq s hs]

theorem word_loop_single_quote (fuel : Nat) (s : List Char) :
    word_loop (fuel + 1) (SINGLE_QUOTE_CHAR :: s) =
      match until_quote SINGLE_QUOTE_CHAR Unclosed_single_quote s with
      | .error e => .error e
      | .ok l => word_loop fuel l.tail := by
  have : SINGLE_QUOTE_CHAR ≠ NUL ∧ is_metacharacter SINGLE_QUOTE_CHAR = false := by decide
  rw [word_loop]
  simp [deref_cons, this.1, this.2]

theorem word_loop_double_quote (fuel : Nat) (s : List Char) :
    word_loop (fuel + 1) (DOUBLE_QUOTE_CHAR :: s) =
      match until_quote DOUBLE_QUOTE_CHAR Unclosed_double_quote s with
      | .error e => .error e
      | .ok l => word_loop fuel l.tail := by
  have : DOUBLE_QUOTE_CHAR ≠ NUL ∧ is_metacharacter DOUBLE_QUOTE_CHAR = false ∧
      DOUBLE_QUOTE_CHAR ≠ SINGLE_QUOTE_CHAR := by decide
  rw [word_loop]
  simp [deref_cons, this.1, this.2.1, this.2.2]

theorem tokenize_of_word_error (q : Char)
    (hq : q = SINGLE_QUOTE_CHAR ∨ q = DOUBLE_QUOTE_CHAR) (a s : List Char)
    (ha : ∀ x ∈ a, is_plain x = true) (err : TokError)
    (h : word (a ++ q :: s) = .error err) : tokenize (a ++ q :: s) = .error err := by
  obtain ⟨x, xs, hx, h0, hm⟩ := plain_then_quote_head a ha q hq s
  unfold tokenize
  rw [hx] at h ⊢
  rw [List.length_cons, tokenize_loop_word_start _ x xs h0 hm, h]

/-- C3: after a prefix `a` free of metacharacters and quotes, an opening
single quote that is never closed makes tokenize fail with "Unclosed single
quote", and an opening double quote that is never closed with "Unclosed double
quote"; no token list is returned. -/
theorem tokenize_unclosed_quote (a s : List Char) (ha : ∀ x ∈ a, is_plain x = true) :
    ((∀ x ∈ s, x ≠ SINGLE_QUOTE_CHAR) →
        tokenize (a ++ SINGLE_QUOTE_CHAR :: s) = .error Unclosed_single_quote) ∧
      ((∀ x ∈ s, x ≠ DOUBLE_QUOTE_CHAR) →
        tokenize (a ++ DOUBLE_QUOTE_CHAR :: s) = .error Unclosed_double_quote) := by
  constructor
  · intro hs
    exact tokenize_of_word_error _ (Or.inl rfl) a s ha _
      (word_unclosed _ _ a s ha hs (fun fuel => word_loop_single_quote fuel s) (by decide))
  · intro hs
    exact tokenize_of_word_error _ (Or.inr rfl) a s ha _
      (word_unclosed _ _ a s ha hs (fun fuel => word_loop_double_quote fuel s) (by decide))

theorem tokenize_unclosed_quote_witness :
    ((∀ x ∈ ([] : List Char), is_plain x = true) ∧
      (∀ x ∈ ['a', 'b', 'c'], x ≠ SINGLE_QUOTE_CHAR) ∧
      (∀ x ∈ ['a', 'b', 'c'], x ≠ DOUBLE_QUOTE_CHAR)) ∧
    tokenize ([] ++ SINGLE_QUOTE_CHAR :: ['a', 'b', 'c']) = .error Unclosed_single_quote ∧
    tokenize ([] ++ DOUBLE_QUOTE_CHAR :: ['a', 'b', 'c']) = .error Unclosed_double_quote :=
  ⟨⟨by decide, by decide, by decide⟩,
    (tokenize_unclosed_quote [] ['a', 'b', 'c'] (by decide)).1 (by decide),
    (tokenize_unclosed_quote [] ['a', 'b', 'c'] (by decide)).2 (by decide)⟩

/-! ## Items separated by single spaces -/

theorem join_items_eq_intercalate (items : List (List Char)) :
    join_items items = [' '].intercalate items := by
  induction items with
  | nil => rfl
  | cons x xs ih =>
      cases xs with
      | nil => simp [join_items, List.intercalate]
      | cons y ys =>
          rw [join_items, ih]
          simp [List.intercalate]

theorem operator_item (op : List Char) (hop : op ∈ simple_operators) (rest : List Char)
    (hrest : after_item rest) :
    deref (op ++ rest) ≠ NUL ∧ consume_blank (op ++ rest) = (false, op ++ rest) ∧
      is_operator (op ++ rest) = true ∧
      operator (op ++ rest) = .ok (new_token (some op) TK_OP, rest) := by
  simp only [simple_operators, List.mem_cons, List.mem_singleton, List.not_mem_nil,
    or_false] at hop
  rcases hrest with h | ⟨l, h⟩ <;> subst h <;>
    rcases hop with k | k | k | k | k | k <;> subst k <;>
    simp [deref, consume_blank, is_blank, is_operator, operator, operators, startswith,
      strlen, strndup, NUL, new_token]

theorem after_item_stops (rest : List Char) (h : after_item rest) :
    deref rest = NUL ∨ is_metacharacter (deref rest) = true := by
  rcases h with h | ⟨l, h⟩ <;> subst h
  · exact Or.inl rfl
  · exact Or.inr (show is_metacharacter ' ' = true by decide)

theorem word_item_head (x : List Char) (h : is_word_item x) :
    ∃ c cs, x = c :: cs ∧ c ≠ NUL ∧ is_metacharacter c = false := by
  obtain ⟨hne, hall⟩ := h
  cases x with
  | nil => exact absurd rfl hne
  | cons c cs =>
      obtain ⟨h0, hm, _, _⟩ := (is_plain_iff c).1 (hall c (List.mem_cons_self _ _))
      exact ⟨c, cs, rfl, h0, hm⟩

theorem word_item_not_operator (x : List Char) (h : is_word_item x) :
    x ∉ simple_operators := by
  obtain ⟨c, cs, hx, _, hm⟩ := word_item_head x h
  subst hx
  intro hmem
  simp only [simple_operators, List.mem_cons, List.mem_singleton, List.not_mem_nil,
    or_false] at hmem
  rcases hmem with k | k | k | k | k | k <;>
    (injection k with k1 k2; subst k1; revert hm; decide)

theorem word_item (x : List Char) (h : is_word_item x) (rest : List Char)
    (hrest : after_item rest) :
    word (x ++ rest) = .ok (new_token (some x) TK_WORD, rest) := by
  have hnul : NUL ∉ x := fun hmem => ((is_plain_iff _).1 (h.2 _ hmem)).1 rfl
  have hlen : (x ++ rest).length + 1 = (rest.length + 1) + x.length := by
    simp only [List.length_append]
    omega
  unfold word
  rw [hlen, word_loop_plain x h.2, word_loop_stop _ rest (after_item_stops rest hrest)]
  simp only [strndup_slice x rest hnul]

/-- One turn of the loop of `tokenize` at an item: the token of the item is
produced and the cursor is right after the item. -/
theorem tokenize_loop_item (x : List Char) (hx : is_item x) (rest : List Char)
    (hrest : after_item rest) (fuel : Nat) :
    tokenize_loop (fuel + 1) (x ++ rest) =
      match tokenize_loop fuel rest with
      | .error e => .error e
      | .ok toks => .ok (item_token x :: toks) := by
  rcases hx with hw | hop
  · obtain ⟨c, cs, hc, h0, hm⟩ := word_item_head x hw
    have hword := word_item x hw rest hrest
    have htok : item_token x = new_token (some x) TK_WORD := by
      simp [item_token, word_item_not_operator x hw]
    rw [htok]
    rw [hc] at hword ⊢
    rw [List.cons_append] at hword ⊢
    rw [tokenize_loop_word_start fuel c _ h0 hm, hword]
  · obtain ⟨h1, h2, h3, h4⟩ := operator_item x hop rest hrest
    have htok : item_token x = new_token (some x) TK_OP := by
      simp [item_token, hop]
    rw [htok, tokenize_loop]
    simp [h1, h2, h3, h4]

theorem item_head_not_blank (x : List Char) (hx : is_item x) :
    ∃ c cs, x = c :: cs ∧ is_blank c = false := by
  rcases hx with hw | hop
  · obtain ⟨c, cs, hc, _, hm⟩ := word_item_head x hw
    exact ⟨c, cs, hc, not_blank_of_not_metacharacter hm⟩
  · simp only [simple_operators, List.mem_cons, List.mem_singleton, List.not_mem_nil,
      or_false] at hop
    rcases hop with k | k | k | k | k | k <;> subst k <;> exact ⟨_, _, rfl, by decide⟩

/-- One turn of the loop of `tokenize` at a single space before a non-blank
byte: the space is dropped. -/
theorem tokenize_loop_space (c : Char) (cs : List Char) (hc : is_blank c = false)
    (fuel : Nat) :
    tokenize_loop (fuel + 1) (' ' :: c :: cs) = tokenize_loop fuel (c :: cs) := by
  have h1 : is_blank ' ' = true ∧ ' ' ≠ NUL := by decide
  rw [tokenize_loop]
  simp [deref_cons, h1.1, h1.2, consume_blank, skip_blank, hc]

theorem tokenize_loop_items (items : List (List Char)) :
    (∀ it ∈ items, is_item it) → ∀ (fuel : Nat), (join_items items).length + 1 ≤ fuel →
      tokenize_loop fuel (join_items items) =
        .ok (items.map item_token ++ [new_token none TK_EOF]) := by
  induction items with
  | nil =>
      intro _ fuel hf
      obtain ⟨f, rfl⟩ : ∃ f, fuel = f + 1 := ⟨fuel - 1, by omega⟩
      exact tokenize_loop_nil f
  | cons x xs ih =>
      intro h fuel hf
      have hx := h x (List.mem_cons_self _ _)
      obtain ⟨c, cs, hc, _⟩ := item_head_not_blank x hx
      have hxlen : 1 ≤ x.length := by
        rw [hc]
        simp
      cases xs with
      | nil =>
          simp only [join_items] at hf ⊢
          obtain ⟨f, rfl⟩ : ∃ f, fuel = f + 2 := ⟨fuel - 2, by omega⟩
          have := tokenize_loop_item x hx [] (Or.inl rfl) (f + 1)
          rw [List.append_nil] at this
          rw [this, tokenize_loop_nil]
          rfl
      | cons y ys =>
          have hy := h y (List.mem_cons_of_mem _ (List.mem_cons_self _ _))
          obtain ⟨d, ds, hd, hdb⟩ := item_head_not_blank y hy
          have hj : ∃ js, join_items (y :: ys) = d :: js := by
            cases ys with
            | nil => exact ⟨ds, by simp [join_items, hd]⟩
            | cons z zs => exact ⟨ds ++ ' ' :: join_items (z :: zs), by simp [join_items, hd]⟩
          obtain ⟨js, hjs⟩ := hj
          simp only [join_items, List.length_append, List.length_cons] at hf ⊢
          obtain ⟨f, rfl⟩ : ∃ f, fuel = f + 2 := ⟨fuel - 2, by omega⟩
          have hih := ih (fun it hit => h it (List.mem_cons_of_mem _ hit)) f (by omega)
          rw [tokenize_loop_item x hx _ (Or.inr ⟨_, rfl⟩) (f + 1), hjs,
            tokenize_loop_space d js hdb f, ← hjs, hih]
          rfl

/-- C1: a line made of items joined with single spaces, each item a
non-empty word free of metacharacters and quotes or one of the operator
symbols `||`, `&`, `;`, `(`, `)`, `|`, tokenizes to one token for each item,
in order (a `WORD` or an `OPERATOR` with the text of the item), followed by
the single token `END_OF_INPUT`. -/
theorem tokenize_items (items : List (List Char)) (h : ∀ it ∈ items, is_item it) :
    tokenize ([' '].intercalate items) =
      .ok (items.map item_token ++ [new_token none TK_EOF]) := by
  rw [← join_items_eq_intercalate]
  exact tokenize_loop_items items h _ (Nat.le_refl _)

theorem tokenize_items_witness :
    (∀ it ∈ [['e', 'c', 'h', 'o'], ['a'], ['|'], ['w', 'c'], ['-', 'l']], is_item it) ∧
      tokenize ['e', 'c', 'h', 'o', ' ', 'a', ' ', '|', ' ', 'w', 'c', ' ', '-', 'l'] =
        .ok [new_token (some ['e', 'c', 'h', 'o']) TK_WORD, new_token (some ['a']) TK_WORD,
          new_token (some ['|']) TK_OP, new_token (some ['w', 'c']) TK_WORD,
          new_token (some ['-', 'l']) TK_WORD, new_token none TK_EOF] :=
  have h : ∀ it ∈ [['e', 'c', 'h', 'o'], ['a'], ['|'], ['w', 'c'], ['-', 'l']],
      is_item it := by
    intro it hit
    simp only [List.mem_cons, List.mem_singleton, List.not_mem_nil, or_false] at hit
    rcases hit with k | k | k | k | k <;> subst k
    · exact Or.inl ⟨by decide, by decide⟩
    · exact Or.inl ⟨by decide, by decide⟩
    · exact Or.inr (by decide)
    · exact Or.inl ⟨by decide, by decide⟩
    · exact Or.inl ⟨by decide, by decide⟩
  ⟨h, tokenize_items [['e', 'c', 'h', 'o'], ['a'], ['|'], ['w', 'c'], ['-', 'l']] h⟩

/-! ## What `operator` returns -/

/-- The scan of `operator`, written out for each way a line can start with a
table entry: the first matching entry, the token, the new cursor. -/
theorem operator_eval (line : List Char) (h : is_operator line = true) :
    ∃ op rest, line = op ++ rest ∧
      operators.find? (fun o => o.isPrefixOf line) = some op ∧
      operator line = .ok (new_token (some op) TK_OP, rest) ∧
      (op ∈ simple_operators ∨ op = ['\n']) := by
  cases line with
  | nil => simp [is_operator_nil] at h
  | cons c cs =>
      rcases (is_operator_cons c cs).1 h with k | k | k | k | k | k <;> subst k
      · rcases cs with _ | ⟨d, ds⟩
        · refine ⟨['|'], [], rfl, by decide, by decide, Or.inl (by decide)⟩
        · by_cases hd : d = '|'
          · subst hd
            refine ⟨['|', '|'], ds, rfl, ?_, ?_, Or.inl (by decide)⟩
            · simp [operators, List.find?, List.isPrefixOf]
            · simp [operator, operators, startswith, strlen, strndup, NUL, new_token]
          · have hd2 : ('|' == d) = false := by simpa using Ne.symm hd
            refine ⟨['|'], d :: ds, rfl, ?_, ?_, Or.inl (by decide)⟩
            · simp [operators, List.find?, List.isPrefixOf, hd2]
            · simp [operator, operators, startswith, strlen, strndup, NUL, new_token, hd]
      · refine ⟨['&'], cs, rfl, ?_, ?_, Or.inl (by decide)⟩
        · simp [operators, List.find?, List.isPrefixOf]
        · simp [operator, operators, startswith, strlen, strndup, NUL, new_token]
      · refine ⟨[';'], cs, rfl, ?_, ?_, Or.inl (by decide)⟩
        · simp [operators, List.find?, List.isPrefixOf]
        · simp [operator, operators, startswith, strlen, strndup, NUL, new_token]
      · refine ⟨['('], cs, rfl, ?_, ?_, Or.inl (by decide)⟩
        · simp [operators, List.find?, List.isPrefixOf]
        · simp [operator, operators, startswith, strlen, strndup, NUL, new_token]
      · refine ⟨[')'], cs, rfl, ?_, ?_, Or.inl (by decide)⟩
        · simp [operators, List.find?, List.isPrefixOf]
        · simp [operator, operators, startswith, strlen, strndup, NUL, new_token]
      · refine ⟨['\n'], cs, rfl, ?_, ?_, Or.inr rfl⟩
        · simp [operators, List.find?, List.isPrefixOf]
        · simp [operator, operators, startswith, strlen, strndup, NUL, new_token]

/-- C13: where `is_operator` holds, `operator` returns an `OPERATOR` token
whose text is the first table entry, in table order, that is a prefix of the
line, and the new cursor is the line without that prefix. -/
theorem operator_first_match (line : List Char) (h : is_operator line = true) :
    ∃ op rest, operators.find? (fun o => o.isPrefixOf line) = some op ∧
      operator line = .ok (new_token (some op) TK_OP, rest) ∧ op ++ rest = line := by
  obtain ⟨op, rest, h1, h2, h3, _⟩ := operator_eval line h
  exact ⟨op, rest, h2, h3, h1.symm⟩

theorem operator_first_match_witness :
    is_operator ['&', '&', 'x'] = true ∧
      operator ['&', '&', 'x'] = .ok (new_token (some ['&']) TK_OP, ['&', 'x']) ∧
      ∃ op rest, operators.find? (fun o => o.isPrefixOf ['&', '&', 'x']) = some op ∧
        operator ['&', '&', 'x'] = .ok (new_token (some op) TK_OP, rest) ∧
        op ++ rest = ['&', '&', 'x'] :=
  ⟨by decide, by decide, operator_first_match ['&', '&', 'x'] (by decide)⟩

/-! ## What `consume_blank` returns -/

theorem skip_blank_eq_dropWhile (line : List Char) :
    skip_blank line = line.dropWhile is_blank := by
  induction line with
  | nil => rfl
  | cons c cs ih =>
      by_cases hc : is_blank c = true
      · have hn : c ≠ NUL := is_blank_ne_NUL hc
        simp [skip_blank, List.dropWhile_cons, hc, hn, ih]
      · simp [skip_blank, List.dropWhile_cons, hc]

theorem dropWhile_head_not_blank (line : List Char) :
    line.dropWhile is_blank = [] ∨
      ∃ c cs, line.dropWhile is_blank = c :: cs ∧ is_blank c = false := by
  induction line with
  | nil => exact Or.inl rfl
  | cons c cs ih =>
      by_cases hc : is_blank c = true
      · simpa [List.dropWhile_cons, hc] using ih
      · exact Or.inr ⟨c, cs, by simp [List.dropWhile_cons, hc], by simpa using hc⟩

theorem consume_blank_fst (line : List Char) :
    (consume_blank line).1 = is_blank (deref line) := by
  unfold consume_blank
  split <;> simp_all

/-- C15: `consume_blank` returns true exactly when the first byte of the line
is a blank; then the new cursor is the line without its longest prefix of
blanks, so it is empty or starts with a non-blank; otherwise the new cursor
is the line. -/
theorem consume_blank_spec (line : List Char) :
    (consume_blank line).1 = is_blank (deref line) ∧
      (is_blank (deref line) = true →
        (consume_blank line).2 = line.dropWhile is_blank ∧
          ((consume_blank line).2 = [] ∨
            ∃ c cs, (consume_blank line).2 = c :: cs ∧ is_blank c = false)) ∧
      (is_blank (deref line) = false → (consume_blank line).2 = line) := by
  refine ⟨consume_blank_fst line, ?_, ?_⟩
  · intro h
    have : (consume_blank line).2 = line.dropWhile is_blank := by
      simp [consume_blank, h, skip_blank_eq_dropWhile]
    rw [this]
    exact ⟨rfl, dropWhile_head_not_blank line⟩
  · intro h
    simp [consume_blank, h]

theorem consume_blank_spec_witness :
    (consume_blank [' ', '\t', '\n', 'a', ' ']).1 = true ∧
      (consume_blank [' ', '\t', '\n', 'a', ' ']).2 = ['a', ' '] ∧
      (consume_blank [' ', '\t', '\n', 'a', ' ']).2 =
        [' ', '\t', '\n', 'a', ' '].dropWhile is_blank :=
  ⟨by decide, by decide,
    ((consume_blank_spec [' ', '\t', '\n', 'a', ' ']).2.1 (by decide)).1⟩

/-! ## One turn of the loop of `tokenize` -/

theorem tokenize_loop_end (fuel : Nat) (line : List Char) (h : deref line = NUL) :
    tokenize_loop (fuel + 1) line = .ok [new_token none TK_EOF] := by
  rw [tokenize_loop]
  simp [h]

theorem tokenize_loop_blank (fuel : Nat) (line : List Char)
    (h : is_blank (deref line) = true) :
    tokenize_loop (fuel + 1) line = tokenize_loop fuel (skip_blank line) := by
  rw [tokenize_loop]
  simp [is_blank_ne_NUL h, consume_blank, h]

theorem tokenize_loop_operator (fuel : Nat) (line : List Char)
    (hb : is_blank (deref line) = false) (ho : is_operator line = true)
    (tok : t_token) (rest : List Char) (hop : operator line = .ok (tok, rest)) :
    tokenize_loop (fuel + 1) line = (tokenize_loop fuel rest).map (fun toks => tok :: toks) := by
  have h0 : deref line ≠ NUL := by
    cases line with
    | nil => simp [is_operator_nil] at ho
    | cons c cs =>
        rw [deref_cons]
        rcases (is_operator_cons c cs).1 ho with k | k | k | k | k | k <;> subst k <;> decide
  rw [tokenize_loop]
  cases hr : tokenize_loop fuel rest <;> simp [consume_blank, hb, h0, ho, hop, hr, Except.map]

theorem is_word_head {line : List Char} (h : is_word line = true) :
    ∃ c cs, line = c :: cs ∧ c ≠ NUL ∧ is_metacharacter c = false := by
  cases line with
  | nil => exact absurd h (by decide)
  | cons c cs => exact ⟨c, cs, rfl, (is_word_cons c cs).1 h⟩

theorem tokenize_loop_word (fuel : Nat) (line : List Char) (hw : is_word line = true)
    (tok : t_token) (rest : List Char) (hwd : word line = .ok (tok, rest)) :
    tokenize_loop (fuel + 1) line = (tokenize_loop fuel rest).map (fun toks => tok :: toks) := by
  obtain ⟨c, cs, hl, h0, hm⟩ := is_word_head hw
  subst hl
  rw [tokenize_loop_word_start fuel c cs h0 hm, hwd]
  cases hr : tokenize_loop fuel rest <;> simp [hr, Except.map]

theorem tokenize_loop_word_error (fuel : Nat) (line : List Char) (hw : is_word line = true)
    (e : TokError) (hwd : word line = .error e) :
    tokenize_loop (fuel + 1) line = .error e := by
  obtain ⟨c, cs, hl, h0, hm⟩ := is_word_head hw
  subst hl
  rw [tokenize_loop_word_start fuel c cs h0 hm, hwd]

theorem tokenize_loop_redirect (fuel : Nat) (line : List Char) (h0 : deref line ≠ NUL)
    (hb : is_blank (deref line) = false) (ho : is_operator line = false)
    (hw : is_word line = false) :
    tokenize_loop (fuel + 1) line = .error Unexpected_character := by
  rw [tokenize_loop]
  simp [consume_blank, hb, h0, ho, hw]

/-! ## Fuel -/

theorem char_cases (c : Char) :
    (c = NUL ∨ is_metacharacter c = true) ∨ c = SINGLE_QUOTE_CHAR ∨ c = DOUBLE_QUOTE_CHAR ∨
      is_plain c = true := by
  by_cases h0 : c = NUL
  · exact Or.inl (Or.inl h0)
  by_cases hm : is_metacharacter c = true
  · exact Or.inl (Or.inr hm)
  by_cases hs : c = SINGLE_QUOTE_CHAR
  · exact Or.inr (Or.inl hs)
  by_cases hd : c = DOUBLE_QUOTE_CHAR
  · exact Or.inr (Or.inr (Or.inl hd))
  · exact Or.inr (Or.inr (Or.inr ((is_plain_iff c).2 ⟨h0, by simpa using hm, hs, hd⟩)))

theorem word_loop_plain_step (fuel : Nat) (c : Char) (cs : List Char)
    (hc : is_plain c = true) : word_loop (fuel + 1) (c :: cs) = word_loop fuel cs :=
  word_loop_plain [c] (by simpa using hc) fuel cs

theorem tail_length_le_of_suffix {l cs : List Char} (h : l <:+ cs) :
    l.tail.length ≤ cs.length := by
  have := h.length_le
  rw [List.length_tail]
  omega

/-- The loop of `word` gives the same result with any fuel above the length
of the line. -/
theorem word_loop_fuel (f : Nat) :
    ∀ (g : Nat) (line : List Char), line.length < f → line.length < g →
      word_loop f line = word_loop g line := by
  induction f with
  | zero =>
      intro g line hf _
      exact absurd hf (Nat.not_lt_zero _)
  | succ f ih =>
      intro g line hf hg
      obtain ⟨g, rfl⟩ : ∃ k, g = k + 1 := ⟨g - 1, by omega⟩
      cases line with
      | nil => rw [word_loop_stop f [] (Or.inl rfl), word_loop_stop g [] (Or.inl rfl)]
      | cons c cs =>
          rw [List.length_cons] at hf hg
          rcases char_cases c with hstop | hs | hd | hp
          · rw [word_loop_stop f (c :: cs) hstop, word_loop_stop g (c :: cs) hstop]
          · subst hs
            rw [word_loop_single_quote, word_loop_single_quote]
            cases hu : until_quote SINGLE_QUOTE_CHAR Unclosed_single_quote cs with
            | error e => rfl
            | ok l =>
                have := tail_length_le_of_suffix (until_quote_suffix _ _ _ _ hu)
                exact ih g l.tail (by omega) (by omega)
          · subst hd
            rw [word_loop_double_quote, word_loop_double_quote]
            cases hu : until_quote DOUBLE_QUOTE_CHAR Unclosed_double_quote cs with
            | error e => rfl
            | ok l =>
                have := tail_length_le_of_suffix (until_quote_suffix _ _ _ _ hu)
                exact ih g l.tail (by omega) (by omega)
          · rw [word_loop_plain_step f c cs hp, word_loop_plain_step g c cs hp]
            exact ih g cs (by omega) (by omega)

/-- The loop of `word` does not run out of fuel above the length of the
line. -/
theorem word_loop_enough (f : Nat) :
    ∀ (line : List Char), line.length < f → word_loop f line ≠ .error out_of_fuel := by
  induction f with
  | zero =>
      intro line hf
      exact absurd hf (Nat.not_lt_zero _)
  | succ f ih =>
      intro line hf
      cases line with
      | nil =>
          rw [word_loop_stop f [] (Or.inl rfl)]
          exact fun h => Except.noConfusion h
      | cons c cs =>
          rw [List.length_cons] at hf
          rcases char_cases c with hstop | hs | hd | hp
          · rw [word_loop_stop f (c :: cs) hstop]
            exact fun h => Except.noConfusion h
          · subst hs
            rw [word_loop_single_quote]
            cases hu : until_quote SINGLE_QUOTE_CHAR Unclosed_single_quote cs with
            | error e =>
                intro h
                injection h with h
                rw [until_quote_error _ _ _ _ hu] at h
                exact TokError.noConfusion h
            | ok l =>
                have := tail_length_le_of_suffix (until_quote_suffix _ _ _ _ hu)
                exact ih l.tail (by omega)
          · subst hd
            rw [word_loop_double_quote]
            cases hu : until_quote DOUBLE_QUOTE_CHAR Unclosed_double_quote cs with
            | error e =>
                intro h
                injection h with h
                rw [until_quote_error _ _ _ _ hu] at h
                exact TokError.noConfusion h
            | ok l =>
                have := tail_length_le_of_suffix (until_quote_suffix _ _ _ _ hu)
                exact ih l.tail (by omega)
          · rw [word_loop_plain_step f c cs hp]
            exact ih cs (by omega)

theorem word_not_out_of_fuel (line : List Char) : word line ≠ .error out_of_fuel := by
  intro h
  unfold word at h
  split at h
  · rename_i e he
    injection h with h
    rw [h] at he
    exact word_loop_enough _ line (Nat.lt_succ_self _) he
  · exact Except.noConfusion h

/-- At a word start the loop of `word` passes the first byte at least. -/
theorem word_loop_rest_shorter (fuel : Nat) (line rest : List Char) (hw : is_word line = true)
    (h : word_loop fuel line = .ok rest) : rest.length < line.length := by
  obtain ⟨c, cs, hl, h0, hm⟩ := is_word_head hw
  subst hl
  cases fuel with
  | zero => exact Except.noConfusion h
  | succ f =>
      rw [List.length_cons]
      rcases char_cases c with hstop | hs | hd | hp
      · rcases hstop with k | k
        · exact absurd k h0
        · rw [hm] at k
          exact Bool.noConfusion k
      · subst hs
        rw [word_loop_single_quote] at h
        cases hu : until_quote SINGLE_QUOTE_CHAR Unclosed_single_quote cs with
        | error e =>
            rw [hu] at h
            exact Except.noConfusion h
        | ok l =>
            rw [hu] at h
            have h1 := tail_length_le_of_suffix (until_quote_suffix _ _ _ _ hu)
            have h2 := (word_loop_suffix _ _ _ h).length_le
            omega
      · subst hd
        rw [word_loop_double_quote] at h
        cases hu : until_quote DOUBLE_QUOTE_CHAR Unclosed_double_quote cs with
        | error e =>
            rw [hu] at h
            exact Except.noConfusion h
        | ok l =>
            rw [hu] at h
            have h1 := tail_length_le_of_suffix (until_quote_suffix _ _ _ _ hu)
            have h2 := (word_loop_suffix _ _ _ h).length_le
            omega
      · rw [word_loop_plain_step f c cs hp] at h
        have h2 := (word_loop_suffix _ _ _ h).length_le
        omega

theorem word_rest_shorter (line rest : List Char) (tok : t_token) (hw : is_word line = true)
    (h : word line = .ok (tok, rest)) : rest.length < line.length := by
  unfold word at h
  split at h
  · exact Except.noConfusion h
  · rename_i l hl
    injection h with h
    injection h with h1 h2
    rw [← h2]
    exact word_loop_rest_shorter _ line l hw hl

theorem skip_blank_shorter (line : List Char) (h : is_blank (deref line) = true) :
    (skip_blank line).length < line.length := by
  cases line with
  | nil => exact absurd h (by decide)
  | cons c cs =>
      rw [deref_cons] at h
      have hn : c ≠ NUL := is_blank_ne_NUL h
      have := (skip_blank_suffix cs).length_le
      have hs : skip_blank (c :: cs) = skip_blank cs := by simp [skip_blank, h, hn]
      rw [hs, List.length_cons]
      omega

theorem is_operator_of_operator_ok {line rest : List Char} {tok : t_token}
    (h : operator line = .ok (tok, rest)) : is_operator line = true := by
  unfold operator at h
  split at h
  · rename_i op hop
    unfold is_operator
    rw [List.any_eq_true]
    exact ⟨op, List.mem_of_find?_eq_some hop, List.find?_some hop⟩
  · exact Except.noConfusion h

theorem operator_shorter (line rest : List Char) (tok : t_token)
    (h : operator line = .ok (tok, rest)) : rest.length < line.length := by
  obtain ⟨op, r, h1, _, h3, h4⟩ := operator_eval line (is_operator_of_operator_ok h)
  rw [h3] at h
  injection h with h
  injection h with _ h
  subst h
  have hop : 1 ≤ op.length := by
    rcases h4 with k | k
    · simp only [simple_operators, List.mem_cons, List.mem_singleton, List.not_mem_nil,
        or_false] at k
      rcases k with k | k | k | k | k | k <;> subst k <;> simp
    · subst k
      simp
  rw [h1, List.length_append]
  omega

theorem line_cases (line : List Char) :
    deref line = NUL ∨ is_blank (deref line) = true ∨
      (is_blank (deref line) = false ∧ is_operator line = true) ∨ is_word line = true ∨
      (deref line ≠ NUL ∧ is_blank (deref line) = false ∧ is_operator line = false ∧
        is_word line = false) := by
  by_cases h0 : deref line = NUL
  · exact Or.inl h0
  by_cases hb : is_blank (deref line) = true
  · exact Or.inr (Or.inl hb)
  by_cases ho : is_operator line = true
  · exact Or.inr (Or.inr (Or.inl ⟨by simpa using hb, ho⟩))
  by_cases hw : is_word line = true
  · exact Or.inr (Or.inr (Or.inr (Or.inl hw)))
  · exact Or.inr (Or.inr (Or.inr (Or.inr
      ⟨h0, by simpa using hb, by simpa using ho, by simpa using hw⟩)))

theorem map_cons_eq_error {tok : t_token} {r : Except TokError (List t_token)} {e : TokError}
    (h : r.map (fun toks => tok :: toks) = .error e) : r = .error e := by
  cases r with
  | error e2 =>
      simp only [Except.map] at h
      exact h
  | ok v =>
      simp only [Except.map] at h
      exact Except.noConfusion h

theorem map_cons_eq_ok {tok : t_token} {r : Except TokError (List t_token)}
    {toks : List t_token} (h : r.map (fun toks => tok :: toks) = .ok toks) :
    ∃ rest, r = .ok rest ∧ toks = tok :: rest := by
  cases r with
  | error e2 =>
      simp only [Except.map] at h
      exact Except.noConfusion h
  | ok v =>
      simp only [Except.map] at h
      injection h with h
      exact ⟨v, rfl, h.symm⟩

/-- The loop of `tokenize` gives the same result with any fuel above the
length of the line. -/
theorem tokenize_loop_fuel (f : Nat) :
    ∀ (g : Nat) (line : List Char), line.length < f → line.length < g →
      tokenize_loop f line = tokenize_loop g line := by
  induction f with
  | zero =>
      intro g line hf _
      exact absurd hf (Nat.not_lt_zero _)
  | succ f ih =>
      intro g line hf hg
      obtain ⟨g, rfl⟩ : ∃ k, g = k + 1 := ⟨g - 1, by omega⟩
      rcases line_cases line with h | h | ⟨hb, ho⟩ | hw | ⟨h0, hb, ho, hw⟩
      · rw [tokenize_loop_end f line h, tokenize_loop_end g line h]
      · have := skip_blank_shorter line h
        rw [tokenize_loop_blank f line h, tokenize_loop_blank g line h]
        exact ih g _ (by omega) (by omega)
      · obtain ⟨op, rest, _, _, hop, _⟩ := operator_eval line ho
        have := operator_shorter line rest _ hop
        rw [tokenize_loop_operator f line hb ho _ rest hop,
          tokenize_loop_operator g line hb ho _ rest hop, ih g rest (by omega) (by omega)]
      · cases hwd : word line with
        | error e =>
            rw [tokenize_loop_word_error f line hw e hwd,
              tokenize_loop_word_error g line hw e hwd]
        | ok p =>
            obtain ⟨tok, rest⟩ := p
            have := word_rest_shorter line rest tok hw hwd
            rw [tokenize_loop_word f line hw tok rest hwd,
              tokenize_loop_word g line hw tok rest hwd, ih g rest (by omega) (by omega)]
      · rw [tokenize_loop_redirect f line h0 hb ho hw,
          tokenize_loop_redirect g line h0 hb ho hw]

/-- The failures of the loop of `tokenize`: "Unexpected operator" is not one
of them, and the fuel is not exhausted above the length of the line. -/
theorem tokenize_loop_error_cases (f : Nat) :
    ∀ (line : List Char) (e : TokError), tokenize_loop f line = .error e →
      e = Unexpected_character ∨ e = Unclosed_single_quote ∨ e = Unclosed_double_quote ∨
        (e = out_of_fuel ∧ f ≤ line.length) := by
  induction f with
  | zero =>
      intro line e h
      injection h with h
      exact Or.inr (Or.inr (Or.inr ⟨h.symm, Nat.zero_le _⟩))
  | succ f ih =>
      intro line e h
      have rec_case : ∀ rest : List Char, rest.length < line.length →
          tokenize_loop f rest = .error e →
          e = Unexpected_character ∨ e = Unclosed_single_quote ∨
            e = Unclosed_double_quote ∨ (e = out_of_fuel ∧ f + 1 ≤ line.length) := by
        intro rest hlt hr
        rcases ih rest e hr with k | k | k | ⟨k, hk⟩
        · exact Or.inl k
        · exact Or.inr (Or.inl k)
        · exact Or.inr (Or.inr (Or.inl k))
        · exact Or.inr (Or.inr (Or.inr ⟨k, by omega⟩))
      rcases line_cases line with h1 | h1 | ⟨hb, ho⟩ | hw | ⟨h0, hb, ho, hw⟩
      · rw [tokenize_loop_end f line h1] at h
        exact Except.noConfusion h
      · rw [tokenize_loop_blank f line h1] at h
        exact rec_case _ (skip_blank_shorter line h1) h
      · obtain ⟨op, rest, _, _, hop, _⟩ := operator_eval line ho
        rw [tokenize_loop_operator f line hb ho _ rest hop] at h
        exact rec_case rest (operator_shorter line rest _ hop) (map_cons_eq_error h)
      · cases hwd : word line with
        | error e2 =>
            rw [tokenize_loop_word_error f line hw e2 hwd] at h
            injection h with h
            subst h
            rcases word_error hwd with k | k | k
            · exact Or.inr (Or.inl k)
            · exact Or.inr (Or.inr (Or.inl k))
            · rw [k] at hwd
              exact absurd hwd (word_not_out_of_fuel line)
        | ok p =>
            obtain ⟨tok, rest⟩ := p
            rw [tokenize_loop_word f line hw tok rest hwd] at h
            exact rec_case rest (word_rest_shorter line rest tok hw hwd) (map_cons_eq_error h)
      · rw [tokenize_loop_redirect f line h0 hb ho hw] at h
        injection h with h
        exact Or.inl h.symm

/-- C17: each turn of the loop of `tokenize` that does not fail shortens the
remaining input (blanks, an operator, a word at a word start), the loop of
`word` ends, and so tokenize ends on every line with a token list or one of
the fatal errors: the fuel of the embedding is never exhausted, and any larger
fuel gives the same result. -/
theorem tokenize_terminates (line : List Char) :
    ((consume_blank line).1 = true → (consume_blank line).2.length < line.length) ∧
      (∀ tok rest, operator line = .ok (tok, rest) → rest.length < line.length) ∧
      (∀ tok rest, is_word line = true → word line = .ok (tok, rest) →
        rest.length < line.length) ∧
      word line ≠ .error out_of_fuel ∧
      tokenize line ≠ .error out_of_fuel ∧
      (∀ fuel, line.length < fuel → tokenize_loop fuel line = tokenize line) := by
  refine ⟨?_, ?_, ?_, word_not_out_of_fuel line, ?_, ?_⟩
  · intro h
    have hb : is_blank (deref line) = true := by
      rw [consume_blank_fst line] at h
      exact h
    have : (consume_blank line).2 = skip_blank line := by simp [consume_blank, hb]
    rw [this]
    exact skip_blank_shorter line hb
  · intro tok rest h
    exact operator_shorter line rest tok h
  · intro tok rest hw h
    exact word_rest_shorter line rest tok hw h
  · intro h
    rcases tokenize_loop_error_cases _ line _ h with k | k | k | ⟨_, k⟩
    · exact TokError.noConfusion k
    · exact TokError.noConfusion k
    · exact TokError.noConfusion k
    · exact absurd k (by omega)
  · intro fuel hf
    exact tokenize_loop_fuel fuel _ line hf (Nat.lt_succ_self _)

theorem tokenize_terminates_witness :
    (consume_blank [' ', ' ', 'a']).2.length < [' ', ' ', 'a'].length ∧
      tokenize_loop 100 ['a', ' ', '|', SINGLE_QUOTE_CHAR] =
        tokenize ['a', ' ', '|', SINGLE_QUOTE_CHAR] ∧
      tokenize ['a', ' ', '|', SINGLE_QUOTE_CHAR] = .error Unclosed_single_quote :=
  ⟨(tokenize_terminates [' ', ' ', 'a']).1 (by decide),
    (tokenize_terminates ['a', ' ', '|', SINGLE_QUOTE_CHAR]).2.2.2.2.2 100 (by decide),
    by decide⟩

/-- C16: where `is_operator` holds, `operator` finds a table entry that is a
prefix of the string and returns its token, so "Unexpected operator" is not
raised; tokenize never fails with it. -/
theorem operator_found (s : List Char) :
    (is_operator s = true →
        ∃ op rest, op ∈ operators ∧ op <+: s ∧
          operator s = .ok (new_token (some op) TK_OP, rest)) ∧
      (is_operator s = true → operator s ≠ .error Unexpected_operator) ∧
      tokenize s ≠ .error Unexpected_operator := by
  refine ⟨?_, ?_, ?_⟩
  · intro h
    obtain ⟨op, rest, h1, h2, hop, _⟩ := operator_eval s h
    exact ⟨op, rest, List.mem_of_find?_eq_some h2, ⟨rest, h1.symm⟩, hop⟩
  · intro h
    obtain ⟨op, rest, _, _, hop, _⟩ := operator_eval s h
    rw [hop]
    exact fun k => Except.noConfusion k
  · intro h
    rcases tokenize_loop_error_cases _ s _ h with k | k | k | ⟨k, _⟩ <;>
      exact TokError.noConfusion k

theorem operator_found_witness :
    is_operator ['|', '|', 'a'] = true ∧
      (∃ op rest, op ∈ operators ∧ op <+: ['|', '|', 'a'] ∧
        operator ['|', '|', 'a'] = .ok (new_token (some op) TK_OP, rest)) ∧
      operator ['|', '|', 'a'] = .ok (new_token (some ['|', '|']) TK_OP, ['a']) :=
  ⟨by decide, (operator_found ['|', '|', 'a']).1 (by decide), by decide⟩

/-! ## What `word` returns -/

theorem until_quote_spec (q : Char) (err : TokError) (hq : q ≠ NUL) :
    ∀ (s m : List Char), until_quote q err s = .ok m →
      ∃ body rest, s = body ++ q :: rest ∧ m = q :: rest ∧ ∀ x ∈ body, x ≠ q ∧ x ≠ NUL := by
  intro s
  induction s with
  | nil =>
      intro m h
      simp [until_quote, Ne.symm hq] at h
  | cons c cs ih =>
      intro m h
      rw [until_quote] at h
      by_cases hc : c = q
      · subst hc
        simp at h
        exact ⟨[], cs, rfl, h.symm, by simp⟩
      · by_cases h0 : c = NUL
        · subst h0
          simp [Ne.symm hq] at h
        · simp [hc, h0] at h
          obtain ⟨body, rest, h1, h2, h3⟩ := ih m h
          refine ⟨c :: body, rest, by rw [h1]; rfl, h2, ?_⟩
          intro x hx
          rcases List.mem_cons.1 hx with k | k
          · rw [k]
            exact ⟨hc, h0⟩
          · exact h3 x k

theorem word_loop_spec (fuel : Nat) :
    ∀ (line rest : List Char), word_loop fuel line = .ok rest →
      ∃ text, line = text ++ rest ∧ word_text text ∧
        (deref rest = NUL ∨ is_metacharacter (deref rest) = true) := by
  induction fuel with
  | zero =>
      intro line rest h
      exact Except.noConfusion h
  | succ f ih =>
      intro line rest h
      have quoted : ∀ (q : Char) (err : TokError) (cs : List Char),
          (q = SINGLE_QUOTE_CHAR ∨ q = DOUBLE_QUOTE_CHAR) →
          (match until_quote q err cs with
            | .error e => .error e
            | .ok l => word_loop f l.tail) = Except.ok rest →
          ∃ text, q :: cs = text ++ rest ∧ word_text text ∧
            (deref rest = NUL ∨ is_metacharacter (deref rest) = true) := by
        intro q err cs hq h
        cases hu : until_quote q err cs with
        | error e =>
            rw [hu] at h
            exact Except.noConfusion h
        | ok l =>
            rw [hu] at h
            obtain ⟨body, m, h1, h2, h3⟩ :=
              until_quote_spec q err (quote_not_metacharacter hq).1 cs l hu
            subst h2
            obtain ⟨text, h4, h5, h6⟩ := ih _ _ h
            rw [List.tail_cons] at h4
            refine ⟨q :: (body ++ q :: text), ?_, word_text.quoted q body text hq h3 h5, h6⟩
            rw [h1, h4]
            simp
      cases line with
      | nil =>
          rw [word_loop_stop f [] (Or.inl rfl)] at h
          injection h with h
          subst h
          exact ⟨[], rfl, word_text.nil, Or.inl rfl⟩
      | cons c cs =>
          rcases char_cases c with hstop | hs | hd | hp
          · rw [word_loop_stop f (c :: cs) hstop] at h
            injection h with h
            subst h
            exact ⟨[], rfl, word_text.nil, hstop⟩
          · subst hs
            rw [word_loop_single_quote] at h
            exact quoted _ _ cs (Or.inl rfl) h
          · subst hd
            rw [word_loop_double_quote] at h
            exact quoted _ _ cs (Or.inr rfl) h
          · rw [word_loop_plain_step f c cs hp] at h
            obtain ⟨text, h4, h5, h6⟩ := ih _ _ h
            exact ⟨c :: text, by rw [h4]; rfl, word_text.plain c text hp h5, h6⟩

theorem word_text_no_NUL {w : List Char} (h : word_text w) : NUL ∉ w := by
  induction h with
  | nil => simp
  | plain c w hc _ ih =>
      intro hmem
      rcases List.mem_cons.1 hmem with k | k
      · exact ((is_plain_iff c).1 hc).1 k.symm
      · exact ih k
  | quoted q body w hq hb _ ih =>
      intro hmem
      have hqn := (quote_not_metacharacter hq).1
      simp only [List.mem_cons, List.mem_append] at hmem
      rcases hmem with k | k | k | k
      · exact hqn k.symm
      · exact (hb _ k).2 rfl
      · exact hqn k.symm
      · exact ih k

/-- The token and the cursor `word` returns at a word start. -/
theorem word_spec (line rest : List Char) (tok : t_token) (hw : is_word line = true)
    (h : word line = .ok (tok, rest)) :
    ∃ text, tok = new_token (some text) TK_WORD ∧ line = text ++ rest ∧ text ≠ [] ∧
      word_text text ∧ (deref rest = NUL ∨ is_metacharacter (deref rest) = true) := by
  have hlt := word_rest_shorter line rest tok hw h
  unfold word at h
  split at h
  · exact Except.noConfusion h
  · rename_i l hl
    injection h with h
    injection h with h1 h2
    subst h2
    obtain ⟨text, h3, h4, h5⟩ := word_loop_spec _ _ _ hl
    refine ⟨text, ?_, h3, ?_, h4, h5⟩
    · rw [← h1]
      have := strndup_slice text l (word_text_no_NUL h4)
      rw [← h3] at this
      rw [this]
    · intro hnil
      rw [h3, hnil] at hlt
      simp at hlt

/-- A metacharacter of a word text stands strictly between an opening quote
(the text before it is balanced) and the next quote of the same kind. -/
theorem word_text_metacharacter {text : List Char} (h : word_text text) :
    ∀ (pre : List Char) (c : Char) (post : List Char), text = pre ++ c :: post →
      is_metacharacter c = true →
      ∃ u q body v, (q = SINGLE_QUOTE_CHAR ∨ q = DOUBLE_QUOTE_CHAR) ∧ word_text u ∧
        (∀ x ∈ body, x ≠ q) ∧ text = u ++ q :: (body ++ q :: v) ∧
        u.length < pre.length ∧ pre.length ≤ u.length + body.length := by
  induction h with
  | nil =>
      intro pre c post heq _
      simp at heq
  | plain c0 w hc hw ih =>
      intro pre c post heq hm
      cases pre with
      | nil =>
          simp only [List.nil_append] at heq
          injection heq with h1 h2
          subst h1
          rw [((is_plain_iff c0).1 hc).2.1] at hm
          exact Bool.noConfusion hm
      | cons p pre =>
          simp only [List.cons_append] at heq
          injection heq with h1 h2
          obtain ⟨u, q, body, v, hq, hu, hb, ht, hl1, hl2⟩ := ih pre c post h2 hm
          refine ⟨c0 :: u, q, body, v, hq, word_text.plain c0 u hc hu, hb, ?_, ?_, ?_⟩
          · rw [ht]
            rfl
          · simp only [List.length_cons]
            omega
          · simp only [List.length_cons]
            omega
  | quoted q body w hq hb hw ih =>
      intro pre c post heq hm
      have hqm : ∀ {d : Char}, d = q → is_metacharacter d = true → False := by
        intro d hd hdm
        rw [hd, (quote_not_metacharacter hq).2] at hdm
        exact Bool.noConfusion hdm
      cases pre with
      | nil =>
          simp only [List.nil_append] at heq
          injection heq with h1 h2
          exact (hqm h1.symm hm).elim
      | cons p pre =>
          simp only [List.cons_append] at heq
          injection heq with h1 h2
          rcases List.append_eq_append_iff.1 h2 with ⟨a, ha1, ha2⟩ | ⟨b, hb1, hb2⟩
          · cases a with
            | nil =>
                simp only [List.nil_append] at ha2
                injection ha2 with h3 h4
                exact (hqm h3.symm hm).elim
            | cons x a =>
                simp only [List.cons_append] at ha2
                injection ha2 with h3 h4
                obtain ⟨u, q2, body2, v, hq2, hu, hb2, ht, hl1, hl2⟩ := ih a c post h4 hm
                refine ⟨q :: (body ++ q :: u), q2, body2, v, hq2,
                  word_text.quoted q body u hq hb hu, hb2, ?_, ?_, ?_⟩
                · rw [ht]
                  simp
                · rw [ha1]
                  simp only [List.length_cons, List.length_append]
                  omega
                · rw [ha1]
                  simp only [List.length_cons, List.length_append]
                  omega
          · cases b with
            | nil =>
                simp only [List.nil_append] at hb2
                injection hb2 with h3 h4
                exact (hqm h3 hm).elim
            | cons y b =>
                refine ⟨[], q, body, w, hq, word_text.nil, fun x hx => (hb x hx).1, rfl, ?_, ?_⟩
                · simp
                · rw [hb1]
                  simp only [List.length_cons, List.length_append, List.length_nil]
                  omega

/-- C14: at a word start where `word` does not fail, the text of the `WORD`
token and the new cursor make up the line, the text is not empty, the cursor
is at the end or at a metacharacter, and every metacharacter of the text
stands strictly between an opening quote and the next quote of the same
kind. -/
theorem word_token_spec (line rest : List Char) (tok : t_token) (hnul : NUL ∉ line)
    (hw : is_word line = true) (h : word line = .ok (tok, rest)) :
    ∃ text, tok = new_token (some text) TK_WORD ∧ text ++ rest = line ∧ text ≠ [] ∧
      (rest = [] ∨ ∃ c cs, rest = c :: cs ∧ is_metacharacter c = true) ∧
      word_text text ∧
      ∀ (pre : List Char) (c : Char) (post : List Char), text = pre ++ c :: post →
        is_metacharacter c = true →
        ∃ u q body v, (q = SINGLE_QUOTE_CHAR ∨ q = DOUBLE_QUOTE_CHAR) ∧ word_text u ∧
          (∀ x ∈ body, x ≠ q) ∧ text = u ++ q :: (body ++ q :: v) ∧
          u.length < pre.length ∧ pre.length ≤ u.length + body.length := by
  obtain ⟨text, h1, h2, h3, h4, h5⟩ := word_spec line rest tok hw h
  refine ⟨text, h1, h2.symm, h3, ?_, h4, word_text_metacharacter h4⟩
  cases rest with
  | nil => exact Or.inl rfl
  | cons c cs =>
      right
      refine ⟨c, cs, rfl, ?_⟩
      rcases h5 with k | k
      · rw [deref_cons] at k
        exact absurd (by rw [h2, ← k]; simp) hnul
      · exact k

theorem word_token_spec_witness :
    (NUL ∉ ['a', SINGLE_QUOTE_CHAR, '|', ' ', SINGLE_QUOTE_CHAR, 'b', ';', 'c'] ∧
      is_word ['a', SINGLE_QUOTE_CHAR, '|', ' ', SINGLE_QUOTE_CHAR, 'b', ';', 'c'] = true ∧
      word ['a', SINGLE_QUOTE_CHAR, '|', ' ', SINGLE_QUOTE_CHAR, 'b', ';', 'c'] =
        .ok (new_token (some ['a', SINGLE_QUOTE_CHAR, '|', ' ', SINGLE_QUOTE_CHAR, 'b'])
          TK_WORD, [';', 'c'])) ∧
    ∃ text,
      new_token (some ['a', SINGLE_QUOTE_CHAR, '|', ' ', SINGLE_QUOTE_CHAR, 'b']) TK_WORD =
        new_token (some text) TK_WORD ∧
      text ++ [';', 'c'] =
        ['a', SINGLE_QUOTE_CHAR, '|', ' ', SINGLE_QUOTE_CHAR, 'b', ';', 'c'] ∧
      text ≠ [] ∧
      (([';', 'c'] : List Char) = [] ∨
        ∃ c cs, [';', 'c'] = c :: cs ∧ is_metacharacter c = true) ∧
      word_text text ∧
      ∀ (pre : List Char) (c : Char) (post : List Char), text = pre ++ c :: post →
        is_metacharacter c = true →
        ∃ u q body v, (q = SINGLE_QUOTE_CHAR ∨ q = DOUBLE_QUOTE_CHAR) ∧ word_text u ∧
          (∀ x ∈ body, x ≠ q) ∧ text = u ++ q :: (body ++ q :: v) ∧
          u.length < pre.length ∧ pre.length ≤ u.length + body.length :=
  ⟨⟨by decide, by decide, by decide⟩,
    word_token_spec ['a', SINGLE_QUOTE_CHAR, '|', ' ', SINGLE_QUOTE_CHAR, 'b', ';', 'c']
      [';', 'c'] _ (by decide) (by decide) (by decide)⟩

/-! ## The token lists of `tokenize` -/

theorem tokenize_loop_lexes (fuel : Nat) :
    ∀ (line : List Char) (toks : List t_token), tokenize_loop fuel line = .ok toks →
      lexes line toks := by
  induction fuel with
  | zero =>
      intro line toks h
      exact Except.noConfusion h
  | succ f ih =>
      intro line toks h
      rcases line_cases line with h1 | h1 | ⟨hb, ho⟩ | hw | ⟨h0, hb, ho, hw⟩
      · rw [tokenize_loop_end f line h1] at h
        injection h with h
        subst h
        exact lexes.eof line h1
      · rw [tokenize_loop_blank f line h1, skip_blank_eq_dropWhile] at h
        exact lexes.blank line toks h1 (ih _ _ h)
      · obtain ⟨op, rest, hl, _, hop, hmem⟩ := operator_eval line ho
        rw [tokenize_loop_operator f line hb ho _ rest hop] at h
        obtain ⟨more, hr, ht⟩ := map_cons_eq_ok h
        subst ht
        subst hl
        have hsimple : op ∈ simple_operators := by
          rcases hmem with k | k
          · exact k
          · subst k
            have : is_blank (deref (['\n'] ++ rest)) = true := by
              rw [List.singleton_append, deref_cons]
              decide
            rw [this] at hb
            exact Bool.noConfusion hb
        exact lexes.op op rest more hsimple (ih _ _ hr)
      · cases hwd : word line with
        | error e =>
            rw [tokenize_loop_word_error f line hw e hwd] at h
            exact Except.noConfusion h
        | ok p =>
            obtain ⟨tok, rest⟩ := p
            rw [tokenize_loop_word f line hw tok rest hwd] at h
            obtain ⟨more, hr, ht⟩ := map_cons_eq_ok h
            obtain ⟨text, h2, h3, h4, h5, h6⟩ := word_spec line rest tok hw hwd
            subst ht
            subst h2
            subst h3
            exact lexes.word text rest more h4 h5 h6 (ih _ _ hr)
      · rw [tokenize_loop_redirect f line h0 hb ho hw] at h
        exact Except.noConfusion h

theorem simple_operators_ne_nil {op : List Char} (h : op ∈ simple_operators) : op ≠ [] := by
  simp only [simple_operators, List.mem_cons, List.mem_singleton, List.not_mem_nil,
    or_false] at h
  rcases h with k | k | k | k | k | k <;> subst k <;> simp

theorem lexes_texts {line : List Char} {toks : List t_token} (h : lexes line toks) :
    ∀ t ∈ toks, (t.kind ≠ TK_EOF → ∃ w, t.word = some w ∧ w ≠ []) ∧
      (t.kind = TK_EOF → t.word = none) ∧
      (t.kind = TK_OP → ∃ w, t.word = some w ∧ w ∈ simple_operators) := by
  induction h with
  | eof line _ =>
      intro t ht
      simp only [List.mem_singleton] at ht
      subst ht
      exact ⟨fun k => absurd rfl k, fun _ => rfl, fun k => t_token_kind.noConfusion k⟩
  | blank line toks _ _ ih => exact ih
  | op op rest toks hop _ ih =>
      intro t ht
      rcases List.mem_cons.1 ht with k | k
      · subst k
        exact ⟨fun _ => ⟨op, rfl, simple_operators_ne_nil hop⟩,
          fun k => t_token_kind.noConfusion k, fun _ => ⟨op, rfl, hop⟩⟩
      · exact ih t k
  | word text rest toks hne _ _ _ ih =>
      intro t ht
      rcases List.mem_cons.1 ht with k | k
      · subst k
        exact ⟨fun _ => ⟨text, rfl, hne⟩, fun k => t_token_kind.noConfusion k,
          fun k => t_token_kind.noConfusion k⟩
      · exact ih t k

/-- C11: in a token list that tokenize returns, every token other than
`END_OF_INPUT` has a text (a non-null pointer) that is not empty, and the
`END_OF_INPUT` token has none. -/
theorem tokenize_token_texts (line : List Char) (toks : List t_token)
    (h : tokenize line = .ok toks) :
    ∀ t ∈ toks, (t.kind ≠ TK_EOF → ∃ w, t.word = some w ∧ w ≠ []) ∧
      (t.kind = TK_EOF → t.word = none) := by
  intro t ht
  have := lexes_texts (tokenize_loop_lexes _ line toks h) t ht
  exact ⟨this.1, this.2.1⟩

theorem tokenize_token_texts_witness :
    tokenize ['a', '|', '|', ' '] =
        .ok [new_token (some ['a']) TK_WORD, new_token (some ['|', '|']) TK_OP,
          new_token none TK_EOF] ∧
      ∀ t ∈ [new_token (some ['a']) TK_WORD, new_token (some ['|', '|']) TK_OP,
          new_token none TK_EOF],
        (t.kind ≠ TK_EOF → ∃ w, t.word = some w ∧ w ≠ []) ∧
          (t.kind = TK_EOF → t.word = none) :=
  ⟨by decide, tokenize_token_texts ['a', '|', '|', ' '] _ (by decide)⟩

/-- C18: in a token list that tokenize returns, the text of every `OPERATOR`
token is one of `||`, `&`, `;`, `(`, `)`, `|`; it is never `&&`, `;;` or a
newline, the three other entries of the table. -/
theorem tokenize_operator_texts (line : List Char) (toks : List t_token)
    (h : tokenize line = .ok toks) :
    ∀ t ∈ toks, t.kind = TK_OP →
      ∃ w, t.word = some w ∧ w ∈ simple_operators ∧
        w ≠ ['&', '&'] ∧ w ≠ [';', ';'] ∧ w ≠ ['\n'] := by
  intro t ht hk
  obtain ⟨w, hw, hmem⟩ := (lexes_texts (tokenize_loop_lexes _ line toks h) t ht).2.2 hk
  refine ⟨w, hw, hmem, ?_, ?_, ?_⟩ <;>
    (intro k; subst k; revert hmem; decide)

theorem tokenize_operator_texts_witness :
    tokenize ['&', '&', '\n', ';', ';'] =
        .ok [new_token (some ['&']) TK_OP, new_token (some ['&']) TK_OP,
          new_token (some [';']) TK_OP, new_token (some [';']) TK_OP,
          new_token none TK_EOF] ∧
      ∀ t ∈ [new_token (some ['&']) TK_OP, new_token (some ['&']) TK_OP,
          new_token (some [';']) TK_OP, new_token (some [';']) TK_OP,
          new_token none TK_EOF], t.kind = TK_OP →
        ∃ w, t.word = some w ∧ w ∈ simple_operators ∧
          w ≠ ['&', '&'] ∧ w ≠ [';', ';'] ∧ w ≠ ['\n'] :=
  ⟨by decide, tokenize_operator_texts ['&', '&', '\n', ';', ';'] _ (by decide)⟩

/-! ## Tokens are slices of the line -/

theorem weave_append_head (a b : List Char) (bs texts : List (List Char)) :
    weave ((a ++ b) :: bs) texts = a ++ weave (b :: bs) texts := by
  cases texts with
  | nil => rfl
  | cons t ts => simp [weave]

theorem lexes_weave {line : List Char} {toks : List t_token} (h : lexes line toks) :
    NUL ∉ line →
      ∃ texts bs, (toks.filter (fun t => t.kind != TK_EOF)).map t_token.word =
          texts.map some ∧
        bs.length = texts.length + 1 ∧ (∀ b ∈ bs, ∀ c ∈ b, is_blank c = true) ∧
        line = weave bs texts := by
  induction h with
  | eof line h0 =>
      intro hnul
      have : line = [] := by
        cases line with
        | nil => rfl
        | cons c cs =>
            rw [deref_cons] at h0
            exact absurd (by rw [h0]; simp) hnul
      subst this
      exact ⟨[], [[]], by simp [new_token], rfl, by simp, rfl⟩
  | blank line toks _ _ ih =>
      intro hnul
      obtain ⟨texts, bs, h1, h2, h3, h4⟩ :=
        ih (fun k => hnul ((List.dropWhile_sublist _).subset k))
      cases bs with
      | nil => simp at h2
      | cons b bs =>
          refine ⟨texts, (line.takeWhile is_blank ++ b) :: bs, h1, by simpa using h2, ?_, ?_⟩
          · intro x hx c hc
            rcases List.mem_cons.1 hx with k | k
            · subst k
              rcases List.mem_append.1 hc with k2 | k2
              · exact (List.mem_takeWhile_imp k2)
              · exact h3 b (List.mem_cons_self _ _) c k2
            · exact h3 x (List.mem_cons_of_mem _ k) c hc
          · rw [weave_append_head, ← h4, List.takeWhile_append_dropWhile]
  | op op rest toks _ _ ih =>
      intro hnul
      obtain ⟨texts, bs, h1, h2, h3, h4⟩ :=
        ih (fun k => hnul (List.mem_append_right _ k))
      refine ⟨op :: texts, [] :: bs, ?_, by simpa using h2, ?_, ?_⟩
      · simpa [new_token] using h1
      · intro x hx c hc
        rcases List.mem_cons.1 hx with k | k
        · subst k
          simp at hc
        · exact h3 x k c hc
      · cases bs with
        | nil => simp at h2
        | cons b bs => simp [weave, h4]
  | word text rest toks _ _ _ _ ih =>
      intro hnul
      obtain ⟨texts, bs, h1, h2, h3, h4⟩ :=
        ih (fun k => hnul (List.mem_append_right _ k))
      refine ⟨text :: texts, [] :: bs, ?_, by simpa using h2, ?_, ?_⟩
      · simpa [new_token] using h1
      · intro x hx c hc
        rcases List.mem_cons.1 hx with k | k
        · subst k
          simp at hc
        · exact h3 x k c hc
      · cases bs with
        | nil => simp at h2
        | cons b bs => simp [weave, h4]

/-- C12: when tokenize returns a token list on a line (a C string), the
line is `b0 ++ t1 ++ b1 ++ ... ++ tn ++ bn` where `t1 .. tn` are the texts of
the tokens other than `END_OF_INPUT`, in list order, and every `bi` is made of
blanks only. -/
theorem tokenize_slices (line : List Char) (toks : List t_token) (hnul : NUL ∉ line)
    (h : tokenize line = .ok toks) :
    ∃ texts bs, (toks.filter (fun t => t.kind != TK_EOF)).map t_token.word =
        texts.map some ∧
      bs.length = texts.length + 1 ∧ (∀ b ∈ bs, ∀ c ∈ b, is_blank c = true) ∧
      line = weave bs texts :=
  lexes_weave (tokenize_loop_lexes _ line toks h) hnul

theorem tokenize_slices_witness :
    (NUL ∉ [' ', 'a', '|', ' ', '\t', 'b', ' '] ∧
      tokenize [' ', 'a', '|', ' ', '\t', 'b', ' '] =
        .ok [new_token (some ['a']) TK_WORD, new_token (some ['|']) TK_OP,
          new_token (some ['b']) TK_WORD, new_token none TK_EOF]) ∧
      ∃ texts bs,
        ([new_token (some ['a']) TK_WORD, new_token (some ['|']) TK_OP,
          new_token (some ['b']) TK_WORD, new_token none TK_EOF].filter
            (fun t => t.kind != TK_EOF)).map t_token.word = texts.map some ∧
        bs.length = texts.length + 1 ∧ (∀ b ∈ bs, ∀ c ∈ b, is_blank c = true) ∧
        [' ', 'a', '|', ' ', '\t', 'b', ' '] = weave bs texts :=
  ⟨⟨by decide, by decide⟩,
    tokenize_slices [' ', 'a', '|', ' ', '\t', 'b', ' '] _ (by decide) (by decide)⟩

/-! ## The three-state scanner -/

/-- The quote state that the quote `q` opens. -/
theorem scan_open (q : Char) (hq : q = SINGLE_QUOTE_CHAR ∨ q = DOUBLE_QUOTE_CHAR) :
    ∃ st, (∀ cs, scan .bare (q :: cs) = scan st cs) ∧
      (∀ body rest, (∀ x ∈ body, x ≠ q) → scan st (body ++ q :: rest) = scan .bare rest) ∧
      (∀ s, (∀ x ∈ s, x ≠ q) →
        scan st s = .unclosed_single_quote ∧ q = SINGLE_QUOTE_CHAR ∨
          scan st s = .unclosed_double_quote ∧ q = DOUBLE_QUOTE_CHAR) := by
  rcases hq with k | k <;> subst k
  · refine ⟨.in_single_quote, ?_, ?_, ?_⟩
    · intro cs
      have : SINGLE_QUOTE_CHAR ≠ '<' ∧ SINGLE_QUOTE_CHAR ≠ '>' := by decide
      simp [scan, this.1, this.2]
    · intro body
      induction body with
      | nil =>
          intro rest _
          simp [scan]
      | cons x xs ih =>
          intro rest h
          have hx := h x (List.mem_cons_self _ _)
          simp only [List.cons_append, scan]
          simp only [beq_iff_eq, hx, if_false]
          exact ih rest (fun y hy => h y (List.mem_cons_of_mem _ hy))
    · intro s
      induction s with
      | nil =>
          intro _
          exact Or.inl ⟨rfl, rfl⟩
      | cons x xs ih =>
          intro h
          have hx := h x (List.mem_cons_self _ _)
          have step : scan .in_single_quote (x :: xs) = scan .in_single_quote xs := by
            simp [scan, hx]
          rw [step]
          exact ih (fun y hy => h y (List.mem_cons_of_mem _ hy))
  · refine ⟨.in_double_quote, ?_, ?_, ?_⟩
    · intro cs
      have : DOUBLE_QUOTE_CHAR ≠ '<' ∧ DOUBLE_QUOTE_CHAR ≠ '>' ∧
          DOUBLE_QUOTE_CHAR ≠ SINGLE_QUOTE_CHAR := by decide
      simp [scan, this.1, this.2.1, this.2.2]
    · intro body
      induction body with
      | nil =>
          intro rest _
          simp [scan]
      | cons x xs ih =>
          intro rest h
          have hx := h x (List.mem_cons_self _ _)
          simp only [List.cons_append, scan]
          simp only [beq_iff_eq, hx, if_false]
          exact ih rest (fun y hy => h y (List.mem_cons_of_mem _ hy))
    · intro s
      induction s with
      | nil =>
          intro _
          exact Or.inr ⟨rfl, rfl⟩
      | cons x xs ih =>
          intro h
          have hx := h x (List.mem_cons_self _ _)
          have step : scan .in_double_quote (x :: xs) = scan .in_double_quote xs := by
            simp [scan, hx]
          rw [step]
          exact ih (fun y hy => h y (List.mem_cons_of_mem _ hy))

/-- In the bare state the scanner passes a byte that is neither `<`, `>` nor
a quote. -/
theorem scan_bare_pass (c : Char) (cs : List Char) (h1 : c ≠ '<') (h2 : c ≠ '>')
    (h3 : c ≠ SINGLE_QUOTE_CHAR) (h4 : c ≠ DOUBLE_QUOTE_CHAR) :
    scan .bare (c :: cs) = scan .bare cs := by
  simp [scan, h1, h2, h3, h4]

theorem scan_bare_plain (c : Char) (cs : List Char) (hc : is_plain c = true) :
    scan .bare (c :: cs) = scan .bare cs := by
  obtain ⟨_, hm, hs, hd⟩ := (is_plain_iff c).1 hc
  refine scan_bare_pass c cs ?_ ?_ hs hd <;>
    (intro k; subst k; revert hm; decide)

theorem scan_bare_blank (c : Char) (cs : List Char) (hc : is_blank c = true) :
    scan .bare (c :: cs) = scan .bare cs := by
  rcases (is_blank_iff c).1 hc with k | k | k <;> subst k <;>
    exact scan_bare_pass _ cs (by decide) (by decide) (by decide) (by decide)

theorem scan_bare_dropWhile_blank (line : List Char) :
    scan .bare (line.dropWhile is_blank) = scan .bare line := by
  induction line with
  | nil => rfl
  | cons c cs ih =>
      by_cases hc : is_blank c = true
      · rw [List.dropWhile_cons_of_pos hc, ih, scan_bare_blank c cs hc]
      · rw [List.dropWhile_cons_of_neg hc]

theorem scan_bare_operator (op rest : List Char)
    (h : op ∈ simple_operators ∨ op = ['\n']) :
    scan .bare (op ++ rest) = scan .bare rest := by
  have step : ∀ (c : Char) (cs : List Char),
      (c = '|' ∨ c = '&' ∨ c = ';' ∨ c = '(' ∨ c = ')' ∨ c = '\n') →
      scan .bare (c :: cs) = scan .bare cs := by
    intro c cs hc
    rcases hc with k | k | k | k | k | k <;> subst k <;>
      exact scan_bare_pass _ cs (by decide) (by decide) (by decide) (by decide)
  rcases h with k | k
  · simp only [simple_operators, List.mem_cons, List.mem_singleton, List.not_mem_nil,
      or_false] at k
    rcases k with k | k | k | k | k | k <;> subst k <;>
      simp only [List.cons_append, List.nil_append] <;>
      repeat rw [step _ _ (by simp)]
  · subst k
    exact step _ _ (by simp)

theorem scan_bare_word_text {text : List Char} (h : word_text text) (rest : List Char) :
    scan .bare (text ++ rest) = scan .bare rest := by
  induction h with
  | nil => rfl
  | plain c w hc _ ih => rw [List.cons_append, scan_bare_plain c _ hc, ih]
  | quoted q body w hq hb _ ih =>
      obtain ⟨st, h1, h2, _⟩ := scan_open q hq
      rw [List.cons_append, h1, List.append_assoc, List.cons_append,
        h2 body _ (fun x hx => (hb x hx).1), ih]

theorem until_quote_error_spec (q : Char) (err : TokError) :
    ∀ (s : List Char) (e : TokError), NUL ∉ s → until_quote q err s = .error e →
      ∀ x ∈ s, x ≠ q := by
  intro s
  induction s with
  | nil =>
      intro e _ _ x hx
      simp at hx
  | cons c cs ih =>
      intro e hnul h x hx
      rw [until_quote] at h
      by_cases hc : c = q
      · simp [hc] at h
      · have h0 : c ≠ NUL := fun k => hnul (by rw [k]; simp)
        simp [hc, h0] at h
        rcases List.mem_cons.1 hx with k | k
        · rw [k]
          exact hc
        · exact ih e (fun k2 => hnul (List.mem_cons_of_mem _ k2)) h x k

/-- Where the loop of `word` stops at an unclosed quote, the scanner reaches
the end of the line in the state of that quote. -/
theorem word_loop_error_scan (fuel : Nat) :
    ∀ (line : List Char) (e : TokError), NUL ∉ line → word_loop fuel line = .error e →
      e ≠ out_of_fuel →
      outcome_of (.error e : Except TokError (List t_token)) = some (scan .bare line) := by
  induction fuel with
  | zero =>
      intro line e _ h hne
      injection h with h
      exact absurd h.symm hne
  | succ f ih =>
      intro line e hnul h hne
      have quoted : ∀ (q : Char) (err : TokError) (cs : List Char),
          (q = SINGLE_QUOTE_CHAR ∧ err = Unclosed_single_quote ∨
            q = DOUBLE_QUOTE_CHAR ∧ err = Unclosed_double_quote) → NUL ∉ cs →
          (match until_quote q err cs with
            | .error e => .error e
            | .ok l => word_loop f l.tail) = Except.error e →
          outcome_of (.error e : Except TokError (List t_token)) =
            some (scan .bare (q :: cs)) := by
        intro q err cs hq hcs h
        have hq2 : q = SINGLE_QUOTE_CHAR ∨ q = DOUBLE_QUOTE_CHAR := by
          rcases hq with k | k
          · exact Or.inl k.1
          · exact Or.inr k.1
        obtain ⟨st, h1, h2, h3⟩ := scan_open q hq2
        cases hu : until_quote q err cs with
        | error e2 =>
            rw [hu] at h
            injection h with h
            subst h
            have he := until_quote_error _ _ _ _ hu
            rw [h1]
            rcases h3 cs (until_quote_error_spec q err cs e2 hcs hu) with ⟨k1, k2⟩ | ⟨k1, k2⟩
            · rcases hq with ⟨_, k4⟩ | ⟨k3, _⟩
              · rw [k1, he, k4]
                rfl
              · rw [k2] at k3
                exact absurd k3 (by decide)
            · rcases hq with ⟨k3, _⟩ | ⟨_, k4⟩
              · rw [k2] at k3
                exact absurd k3 (by decide)
              · rw [k1, he, k4]
                rfl
        | ok l =>
            rw [hu] at h
            obtain ⟨body, m, h4, h5, h6⟩ :=
              until_quote_spec q err (quote_not_metacharacter hq2).1 cs l hu
            subst h5
            simp only [List.tail_cons] at h
            have hm : NUL ∉ m := fun k => hcs (by rw [h4]; simp [k])
            rw [h1, h4, h2 body m (fun x hx => (h6 x hx).1)]
            exact ih m e hm h hne
      cases line with
      | nil =>
          rw [word_loop_stop f [] (Or.inl rfl)] at h
          exact Except.noConfusion h
      | cons c cs =>
          have hcs : NUL ∉ cs := fun k => hnul (List.mem_cons_of_mem _ k)
          rcases char_cases c with hstop | hs | hd | hp
          · rw [word_loop_stop f (c :: cs) hstop] at h
            exact Except.noConfusion h
          · subst hs
            rw [word_loop_single_quote] at h
            exact quoted _ _ cs (Or.inl ⟨rfl, rfl⟩) hcs h
          · subst hd
            rw [word_loop_double_quote] at h
            exact quoted _ _ cs (Or.inr ⟨rfl, rfl⟩) hcs h
          · rw [word_loop_plain_step f c cs hp] at h
            rw [scan_bare_plain c cs hp]
            exact ih cs e hcs h hne

theorem outcome_of_map (tok : t_token) (r : Except TokError (List t_token)) :
    outcome_of (r.map (fun toks => tok :: toks)) = outcome_of r := by
  cases r with
  | error e => rfl
  | ok v => rfl

/-- The loop of `tokenize` ends as the scanner predicts from the bare
state. -/
theorem tokenize_loop_scan (fuel : Nat) :
    ∀ (line : List Char), NUL ∉ line → line.length < fuel →
      outcome_of (tokenize_loop fuel line) = some (scan .bare line) := by
  induction fuel with
  | zero =>
      intro line _ hf
      exact absurd hf (Nat.not_lt_zero _)
  | succ f ih =>
      intro line hnul hf
      rcases line_cases line with h1 | h1 | ⟨hb, ho⟩ | hw | ⟨h0, hb, ho, hw⟩
      · have : line = [] := by
          cases line with
          | nil => rfl
          | cons c cs =>
              rw [deref_cons] at h1
              exact absurd (by rw [h1]; simp) hnul
        subst this
        rw [tokenize_loop_end f [] h1]
        rfl
      · have hlt := skip_blank_shorter line h1
        rw [tokenize_loop_blank f line h1,
          ih _ (fun k => hnul ((skip_blank_suffix line).subset k)) (by omega),
          skip_blank_eq_dropWhile, scan_bare_dropWhile_blank]
      · obtain ⟨op, rest, hl, _, hop, hmem⟩ := operator_eval line ho
        have hlt := operator_shorter line rest _ hop
        rw [tokenize_loop_operator f line hb ho _ rest hop, outcome_of_map,
          ih rest (fun k => hnul (by rw [hl]; exact List.mem_append_right _ k)) (by omega),
          hl, scan_bare_operator op rest hmem]
      · cases hwd : word line with
        | error e =>
            rw [tokenize_loop_word_error f line hw e hwd]
            have hne : e ≠ out_of_fuel := by
              intro k
              rw [k] at hwd
              exact word_not_out_of_fuel line hwd
            unfold word at hwd
            split at hwd
            · rename_i e2 he
              injection hwd with hwd
              subst hwd
              exact word_loop_error_scan _ line e2 hnul he hne
            · exact Except.noConfusion hwd
        | ok p =>
            obtain ⟨tok, rest⟩ := p
            have hlt := word_rest_shorter line rest tok hw hwd
            obtain ⟨text, _, h3, _, h5, _⟩ := word_spec line rest tok hw hwd
            rw [tokenize_loop_word f line hw tok rest hwd, outcome_of_map,
              ih rest (fun k => hnul (by rw [h3]; exact List.mem_append_right _ k)) (by omega),
              h3, scan_bare_word_text h5]
      · obtain ⟨c, cs, hl, hc0⟩ := deref_ne_NUL h0
        subst hl
        rw [tokenize_loop_redirect f _ h0 hb ho hw]
        rw [deref_cons] at hb
        rcases unclassified_is_redirect c cs hc0 hb ho hw with k | k <;> subst k <;> rfl

/-- C19: on a line (a C string) tokenize fails exactly as the three-state
scanner predicts: with "Unexpected character" iff the scanner meets `<` or `>`
in the bare state, with "Unclosed single quote" (resp. double) iff it reaches
the end of the line in the single-quote (resp. double-quote) state, and it
returns a token list iff the scanner ends in the bare state. -/
theorem tokenize_matches_scanner (line : List Char) (hnul : NUL ∉ line) :
    (tokenize line = .error Unexpected_character ↔
        scan .bare line = .unexpected_character) ∧
      (tokenize line = .error Unclosed_single_quote ↔
        scan .bare line = .unclosed_single_quote) ∧
      (tokenize line = .error Unclosed_double_quote ↔
        scan .bare line = .unclosed_double_quote) ∧
      ((∃ toks, tokenize line = .ok toks) ↔ scan .bare line = .token_list) := by
  have h := tokenize_loop_scan _ line hnul (Nat.lt_succ_self _)
  change outcome_of (tokenize line) = _ at h
  generalize tokenize line = r at h
  generalize scan .bare line = o at h
  cases r with
  | ok toks =>
      injection h with h
      subst h
      simp
  | error e =>
      cases e <;> simp only [outcome_of] at h <;>
        first
        | exact Option.noConfusion h
        | (injection h with h; subst h; simp)

theorem tokenize_matches_scanner_witness :
    NUL ∉ ['a', SINGLE_QUOTE_CHAR, '<', SINGLE_QUOTE_CHAR, ' ', '>', DOUBLE_QUOTE_CHAR] ∧
      scan .bare ['a', SINGLE_QUOTE_CHAR, '<', SINGLE_QUOTE_CHAR, ' ', '>', DOUBLE_QUOTE_CHAR] =
        .unexpected_character ∧
      tokenize ['a', SINGLE_QUOTE_CHAR, '<', SINGLE_QUOTE_CHAR, ' ', '>', DOUBLE_QUOTE_CHAR] =
        .error Unexpected_character :=
  ⟨by decide, by decide,
    (tokenize_matches_scanner _ (by decide)).1.2 (by decide)⟩

/-! ## Blanks around a line -/

theorem skip_blank_leading (b line : List Char) (hb : ∀ c ∈ b, is_blank c = true) :
    skip_blank (b ++ line) = skip_blank line := by
  induction b with
  | nil => rfl
  | cons c cs ih =>
      have hc := hb c (List.mem_cons_self _ _)
      have hn := is_blank_ne_NUL hc
      have h1 : skip_blank (c :: (cs ++ line)) = skip_blank (cs ++ line) := by
        simp [skip_blank, hc, hn]
      rw [List.cons_append, h1]
      exact ih (fun d hd => hb d (List.mem_cons_of_mem _ hd))

theorem skip_blank_not_blank (line : List Char) (h : is_blank (deref line) = false) :
    skip_blank line = line := by
  cases line with
  | nil => rfl
  | cons c cs =>
      rw [deref_cons] at h
      simp [skip_blank, h]

theorem tokenize_loop_blanks (b : List Char) (hb : ∀ c ∈ b, is_blank c = true) (fuel : Nat)
    (hf : b.length < fuel) : tokenize_loop fuel b = .ok [new_token none TK_EOF] := by
  obtain ⟨f, rfl⟩ : ∃ k, fuel = k + 1 := ⟨fuel - 1, by omega⟩
  cases b with
  | nil => exact tokenize_loop_nil f
  | cons c cs =>
      rw [List.length_cons] at hf
      obtain ⟨g, rfl⟩ : ∃ k, f = k + 1 := ⟨f - 1, by omega⟩
      rw [tokenize_loop_blank _ (c :: cs) (hb c (List.mem_cons_self _ _)), skip_blank_all _ hb]
      exact tokenize_loop_nil g

theorem tokenize_leading (b line : List Char) (hb : ∀ c ∈ b, is_blank c = true) :
    tokenize (b ++ line) = tokenize line := by
  cases b with
  | nil => rfl
  | cons c cs =>
      have hc := hb c (List.mem_cons_self _ _)
      have hlen : ((c :: cs) ++ line).length = (cs.length + line.length) + 1 := by
        simp only [List.length_append, List.length_cons]
        omega
      unfold tokenize
      rw [hlen, tokenize_loop_blank _ _ (by rw [List.cons_append, deref_cons]; exact hc),
        skip_blank_leading _ _ hb]
      by_cases hl : is_blank (deref line) = true
      · have := skip_blank_shorter line hl
        rw [tokenize_loop_blank _ line hl]
        exact tokenize_loop_fuel _ _ _ (by omega) (by omega)
      · rw [skip_blank_not_blank line (by simpa using hl)]
        exact tokenize_loop_fuel _ _ _ (by omega) (by omega)

theorem deref_append (line b : List Char) (h : line ≠ []) : deref (line ++ b) = deref line := by
  cases line with
  | nil => exact absurd rfl h
  | cons c cs => rfl

theorem is_operator_append (line b : List Char) (h : line ≠ []) :
    is_operator (line ++ b) = is_operator line := by
  cases line with
  | nil => exact absurd rfl h
  | cons c cs =>
      rw [List.cons_append, Bool.eq_iff_iff, is_operator_cons, is_operator_cons]

theorem is_word_append (line b : List Char) (h : line ≠ []) :
    is_word (line ++ b) = is_word line := by
  cases line with
  | nil => exact absurd rfl h
  | cons c cs => rfl

theorem skip_blank_trailing (line b : List Char) (hb : ∀ c ∈ b, is_blank c = true) :
    (skip_blank line = [] ∧ skip_blank (line ++ b) = []) ∨
      (skip_blank line ≠ [] ∧ skip_blank (line ++ b) = skip_blank line ++ b) := by
  induction line with
  | nil => exact Or.inl ⟨rfl, skip_blank_all b hb⟩
  | cons c cs ih =>
      by_cases hc : (c != NUL && is_blank c) = true
      · have h1 : skip_blank (c :: cs) = skip_blank cs := by simp [skip_blank, hc]
        have h2 : skip_blank (c :: cs ++ b) = skip_blank (cs ++ b) := by
          rw [List.cons_append]
          simp [skip_blank, hc]
        rw [h1, h2]
        exact ih
      · have h1 : skip_blank (c :: cs) = c :: cs := by simp [skip_blank, hc]
        have h2 : skip_blank (c :: cs ++ b) = c :: cs ++ b := by
          rw [List.cons_append]
          simp [skip_blank, hc]
        rw [h1, h2]
        exact Or.inr ⟨by simp, rfl⟩

theorem operator_single (c : Char) (cs : List Char)
    (hc : c = '&' ∨ c = ';' ∨ c = '(' ∨ c = ')' ∨ c = '\n') :
    operator (c :: cs) = .ok (new_token (some [c]) TK_OP, cs) := by
  rcases hc with k | k | k | k | k <;> subst k <;>
    simp [operator, operators, startswith, strlen, strndup, NUL, new_token]

theorem operator_pipe_pipe (cs : List Char) :
    operator ('|' :: '|' :: cs) = .ok (new_token (some ['|', '|']) TK_OP, cs) := by
  simp [operator, operators, startswith, strlen, strndup, NUL, new_token]

theorem operator_pipe (cs : List Char) (h : deref cs ≠ '|') :
    operator ('|' :: cs) = .ok (new_token (some ['|']) TK_OP, cs) := by
  cases cs with
  | nil => decide
  | cons d ds =>
      rw [deref_cons] at h
      simp [operator, operators, startswith, strlen, strndup, NUL, new_token, h]

theorem deref_blank_tail (cs b : List Char) (hb : ∀ c ∈ b, is_blank c = true)
    (h : deref cs ≠ '|') : deref (cs ++ b) ≠ '|' := by
  cases cs with
  | cons d ds => exact h
  | nil =>
      cases b with
      | nil => exact h
      | cons d ds =>
          intro k
          have := hb d (List.mem_cons_self _ _)
          rw [List.nil_append, deref_cons] at k
          rw [k] at this
          exact absurd this (by decide)

/-- Blanks after the line do not change what `operator` returns. -/
theorem operator_append_blank (line b : List Char) (hb : ∀ c ∈ b, is_blank c = true)
    (ho : is_operator line = true) :
    ∃ tok rest, operator line = .ok (tok, rest) ∧
      operator (line ++ b) = .ok (tok, rest ++ b) := by
  cases line with
  | nil => simp [is_operator_nil] at ho
  | cons c cs =>
      rw [List.cons_append]
      rcases (is_operator_cons c cs).1 ho with k | k | k | k | k | k
      · subst k
        by_cases hd : deref cs = '|'
        · cases cs with
          | nil => exact absurd hd (by decide)
          | cons d ds =>
              rw [deref_cons] at hd
              subst hd
              exact ⟨_, _, operator_pipe_pipe ds, operator_pipe_pipe (ds ++ b)⟩
        · exact ⟨_, _, operator_pipe cs hd, operator_pipe (cs ++ b) (deref_blank_tail cs b hb hd)⟩
      · exact ⟨_, _, operator_single c cs (Or.inl k), operator_single c _ (Or.inl k)⟩
      · exact ⟨_, _, operator_single c cs (Or.inr (Or.inl k)),
          operator_single c _ (Or.inr (Or.inl k))⟩
      · exact ⟨_, _, operator_single c cs (Or.inr (Or.inr (Or.inl k))),
          operator_single c _ (Or.inr (Or.inr (Or.inl k)))⟩
      · exact ⟨_, _, operator_single c cs (Or.inr (Or.inr (Or.inr (Or.inl k)))),
          operator_single c _ (Or.inr (Or.inr (Or.inr (Or.inl k))))⟩
      · exact ⟨_, _, operator_single c cs (Or.inr (Or.inr (Or.inr (Or.inr k)))),
          operator_single c _ (Or.inr (Or.inr (Or.inr (Or.inr k))))⟩

theorem until_quote_append_blank (q : Char) (err : TokError)
    (hq : q = SINGLE_QUOTE_CHAR ∨ q = DOUBLE_QUOTE_CHAR) (b : List Char)
    (hb : ∀ c ∈ b, is_blank c = true) :
    ∀ (s : List Char),
      until_quote q err (s ++ b) = (until_quote q err s).map (fun l => l ++ b) := by
  have hqn := (quote_not_metacharacter hq).1
  have hbq : ∀ x ∈ b, x ≠ q := by
    intro x hx k
    have h1 := is_blank_metacharacter (hb x hx)
    rw [k, (quote_not_metacharacter hq).2] at h1
    exact Bool.noConfusion h1
  intro s
  induction s with
  | nil =>
      rw [List.nil_append, until_quote_unclosed q err hqn b hbq]
      simp [until_quote, Ne.symm hqn, Except.map]
  | cons c cs ih =>
      rw [List.cons_append, until_quote, until_quote]
      by_cases hc : c = q
      · simp [hc, Except.map]
      · by_cases h0 : c = NUL
        · simp [hc, h0, Except.map, Ne.symm hqn]
        · simp [hc, h0, ih]

/-- Blanks after the line do not change what the loop of `word` passes. -/
theorem word_loop_append_blank (b : List Char) (hb : ∀ c ∈ b, is_blank c = true)
    (fuel : Nat) :
    ∀ (line : List Char), (line ++ b).length < fuel →
      word_loop fuel (line ++ b) = (word_loop fuel line).map (fun l => l ++ b) := by
  induction fuel with
  | zero =>
      intro line hf
      exact absurd hf (Nat.not_lt_zero _)
  | succ f ih =>
      intro line hf
      have quoted : ∀ (q : Char) (err : TokError) (cs : List Char),
          (q = SINGLE_QUOTE_CHAR ∨ q = DOUBLE_QUOTE_CHAR) → (cs ++ b).length < f →
          (match until_quote q err (cs ++ b) with
            | Except.error e => Except.error e
            | Except.ok l => word_loop f l.tail) =
          Except.map (fun l => l ++ b)
            (match until_quote q err cs with
              | Except.error e => Except.error e
              | Except.ok l => word_loop f l.tail) := by
        intro q err cs hq hlen
        rw [until_quote_append_blank q err hq b hb cs]
        cases hu : until_quote q err cs with
        | error e => rfl
        | ok l =>
            obtain ⟨body, m, h1, h2, _⟩ :=
              until_quote_spec q err (quote_not_metacharacter hq).1 cs l hu
            subst h2
            have hm : (m ++ b).length < f := by
              rw [h1] at hlen
              simp only [List.length_append, List.length_cons] at hlen ⊢
              omega
            simp only [Except.map, List.cons_append, List.tail_cons]
            exact ih m hm
      cases line with
      | nil =>
          have hstop : deref b = NUL ∨ is_metacharacter (deref b) = true := by
            cases b with
            | nil => exact Or.inl rfl
            | cons d ds => exact Or.inr (is_blank_metacharacter (hb d (List.mem_cons_self _ _)))
          rw [List.nil_append, word_loop_stop f b hstop, word_loop_stop f [] (Or.inl rfl)]
          rfl
      | cons c cs =>
          have hlen : (cs ++ b).length < f := by
            simp only [List.cons_append, List.length_cons] at hf
            omega
          rw [List.cons_append]
          rcases char_cases c with hstop | hs | hd | hp
          · rw [word_loop_stop f (c :: (cs ++ b)) hstop, word_loop_stop f (c :: cs) hstop]
            rfl
          · subst hs
            rw [word_loop_single_quote, word_loop_single_quote]
            exact quoted _ _ cs (Or.inl rfl) hlen
          · subst hd
            rw [word_loop_double_quote, word_loop_double_quote]
            exact quoted _ _ cs (Or.inr rfl) hlen
          · rw [word_loop_plain_step f c _ hp, word_loop_plain_step f c cs hp]
            exact ih cs hlen

/-- Blanks after the line do not change the token `word` returns. -/
theorem word_append_blank (line b : List Char) (hb : ∀ c ∈ b, is_blank c = true) :
    word (line ++ b) = (word line).map (fun p => (p.1, p.2 ++ b)) := by
  have h1 := word_loop_append_blank b hb ((line ++ b).length + 1) line (Nat.lt_succ_self _)
  have h2 : word_loop ((line ++ b).length + 1) line = word_loop (line.length + 1) line :=
    word_loop_fuel _ _ line (by simp only [List.length_append]; omega) (Nat.lt_succ_self _)
  unfold word
  rw [h1, h2]
  cases hl : word_loop (line.length + 1) line with
  | error e => rfl
  | ok rest =>
      have hle := (word_loop_suffix _ _ _ hl).length_le
      have hn : (line ++ b).length - (rest ++ b).length = line.length - rest.length := by
        simp only [List.length_append]
        omega
      have ht : List.take (line.length - rest.length) (line ++ b) =
          List.take (line.length - rest.length) line :=
        List.take_append_of_le_length (by omega)
      simp only [Except.map, hn, strndup, ht]

/-- Blanks after the line do not change what the loop of `tokenize`
returns. -/
theorem tokenize_loop_trailing (b : List Char) (hb : ∀ c ∈ b, is_blank c = true)
    (fuel : Nat) :
    ∀ (line : List Char), (line ++ b).length < fuel →
      tokenize_loop fuel (line ++ b) = tokenize_loop fuel line := by
  induction fuel with
  | zero =>
      intro line hf
      exact absurd hf (Nat.not_lt_zero _)
  | succ f ih =>
      intro line hf
      cases hline : line with
      | nil =>
          rw [List.nil_append, tokenize_loop_nil]
          exact tokenize_loop_blanks b hb _ (by rw [hline] at hf; simpa using hf)
      | cons c cs =>
          rw [← hline]
          have hne : line ≠ [] := by
            rw [hline]
            simp
          have hlen : ∀ rest : List Char, rest.length < line.length →
              (rest ++ b).length < f := by
            intro rest hr
            simp only [List.length_append] at hf ⊢
            omega
          rcases line_cases line with h1 | h1 | ⟨hb1, ho⟩ | hw | ⟨h0, hb1, ho, hw⟩
          · rw [tokenize_loop_end f line h1,
              tokenize_loop_end f (line ++ b) (by rw [deref_append line b hne]; exact h1)]
          · have hlt := skip_blank_shorter line h1
            rw [tokenize_loop_blank f line h1,
              tokenize_loop_blank f (line ++ b) (by rw [deref_append line b hne]; exact h1)]
            rcases skip_blank_trailing line b hb with ⟨k1, k2⟩ | ⟨_, k2⟩
            · rw [k1, k2]
            · rw [k2]
              exact ih _ (hlen _ hlt)
          · obtain ⟨tok, rest, hop1, hop2⟩ := operator_append_blank line b hb ho
            have hlt := operator_shorter line rest tok hop1
            rw [tokenize_loop_operator f line hb1 ho tok rest hop1,
              tokenize_loop_operator f (line ++ b)
                (by rw [deref_append line b hne]; exact hb1)
                (by rw [is_operator_append line b hne]; exact ho) tok (rest ++ b) hop2,
              ih rest (hlen rest hlt)]
          · have hw2 : is_word (line ++ b) = true := by
              rw [is_word_append line b hne]
              exact hw
            have hwa := word_append_blank line b hb
            cases hwd : word line with
            | error e =>
                rw [hwd] at hwa
                rw [tokenize_loop_word_error f line hw e hwd,
                  tokenize_loop_word_error f (line ++ b) hw2 e hwa]
            | ok p =>
                obtain ⟨tok, rest⟩ := p
                rw [hwd] at hwa
                have hlt := word_rest_shorter line rest tok hw hwd
                rw [tokenize_loop_word f line hw tok rest hwd,
                  tokenize_loop_word f (line ++ b) hw2 tok (rest ++ b) hwa,
                  ih rest (hlen rest hlt)]
          · rw [tokenize_loop_redirect f line h0 hb1 ho hw,
              tokenize_loop_redirect f (line ++ b)
                (by rw [deref_append line b hne]; exact h0)
                (by rw [deref_append line b hne]; exact hb1)
                (by rw [is_operator_append line b hne]; exact ho)
                (by rw [is_word_append line b hne]; exact hw)]

/-- C20: blanks before the line and blanks after the line do not change the
result of tokenize: the same tokens (kinds and texts) or the same failure. -/
theorem tokenize_blanks_around (b line : List Char) (hb : ∀ c ∈ b, is_blank c = true) :
    tokenize (b ++ line) = tokenize line ∧ tokenize (line ++ b) = tokenize line := by
  refine ⟨tokenize_leading b line hb, ?_⟩
  unfold tokenize
  rw [tokenize_loop_trailing b hb _ line (Nat.lt_succ_self _)]
  exact tokenize_loop_fuel _ _ line (by simp only [List.length_append]; omega)
    (Nat.lt_succ_self _)

theorem tokenize_blanks_around_witness :
    (∀ c ∈ [' ', '\n', '\t'], is_blank c = true) ∧
      tokenize ([' ', '\n', '\t'] ++ ['a', '|', SINGLE_QUOTE_CHAR, ' ', SINGLE_QUOTE_CHAR]) =
        tokenize ['a', '|', SINGLE_QUOTE_CHAR, ' ', SINGLE_QUOTE_CHAR] ∧
      tokenize (['a', '|', SINGLE_QUOTE_CHAR, ' ', SINGLE_QUOTE_CHAR] ++ [' ', '\n', '\t']) =
        tokenize ['a', '|', SINGLE_QUOTE_CHAR, ' ', SINGLE_QUOTE_CHAR] :=
  ⟨by decide,
    tokenize_blanks_around [' ', '\n', '\t']
      ['a', '|', SINGLE_QUOTE_CHAR, ' ', SINGLE_QUOTE_CHAR] (by decide)⟩

/-! ## "Unexpected character" needs an unquoted `<` or `>` -/

/-- The scanner predicts the same from every position the loop of
`tokenize` reaches as from the start of the line. -/
theorem loop_reaches_scan {line cur : List Char} (h : loop_reaches line cur) :
    scan .bare cur = scan .bare line := by
  induction h with
  | start => rfl
  | blank cur _ _ hb ih =>
      have hbl : is_blank (deref cur) = true := by
        rw [consume_blank_fst cur] at hb
        exact hb
      have : (consume_blank cur).2 = cur.dropWhile is_blank := by
        simp [consume_blank, hbl, skip_blank_eq_dropWhile]
      rw [this, scan_bare_dropWhile_blank, ih]
  | operator cur rest tok _ _ _ ho hop ih =>
      obtain ⟨op, r, hl, _, hop2, hmem⟩ := operator_eval cur ho
      rw [hop2] at hop
      injection hop with hop
      injection hop with _ hr
      subst hr
      rw [← ih, hl, scan_bare_operator op r hmem]
  | word cur rest tok _ _ _ _ hw hwd ih =>
      obtain ⟨text, _, h3, _, h5, _⟩ := word_spec cur rest tok hw hwd
      rw [← ih, h3, scan_bare_word_text h5]

/-- Where the loop of `tokenize` fails with "Unexpected character", the
scanner meets `<` or `>` in the bare state. -/
theorem tokenize_loop_unexpected_scan (fuel : Nat) :
    ∀ (line : List Char), tokenize_loop fuel line = .error Unexpected_character →
      scan .bare line = .unexpected_character := by
  induction fuel with
  | zero =>
      intro line h
      injection h with h
      exact TokError.noConfusion h
  | succ f ih =>
      intro line h
      rcases line_cases line with h1 | h1 | ⟨hb, ho⟩ | hw | ⟨h0, hb, ho, hw⟩
      · rw [tokenize_loop_end f line h1] at h
        exact Except.noConfusion h
      · rw [tokenize_loop_blank f line h1] at h
        have := ih _ h
        rw [skip_blank_eq_dropWhile, scan_bare_dropWhile_blank] at this
        exact this
      · obtain ⟨op, rest, hl, _, hop, hmem⟩ := operator_eval line ho
        rw [tokenize_loop_operator f line hb ho _ rest hop] at h
        rw [hl, scan_bare_operator op rest hmem]
        exact ih rest (map_cons_eq_error h)
      · cases hwd : word line with
        | error e =>
            rw [tokenize_loop_word_error f line hw e hwd] at h
            injection h with h
            subst h
            rcases word_error hwd with k | k | k <;> exact TokError.noConfusion k
        | ok p =>
            obtain ⟨tok, rest⟩ := p
            rw [tokenize_loop_word f line hw tok rest hwd] at h
            obtain ⟨text, _, h3, _, h5, _⟩ := word_spec line rest tok hw hwd
            rw [h3, scan_bare_word_text h5]
            exact ih rest (map_cons_eq_error h)
      · obtain ⟨c, cs, hl, hc0⟩ := deref_ne_NUL h0
        subst hl
        rw [deref_cons] at hb
        rcases unclassified_is_redirect c cs hc0 hb ho hw with k | k <;> subst k <;> rfl

/-- C9, amended: on every line where the three-state scanner meets no `<`
and no `>` in the bare state (none stands outside quotes), every position the
loop of tokenize reaches that is not the end is blank-started,
operator-started or word-started, and tokenize never fails with "Unexpected
character". -/
theorem tokenize_no_unexpected_character (line : List Char)
    (h : scan .bare line ≠ .unexpected_character) :
    (∀ cur, loop_reaches line cur → deref cur ≠ NUL →
        is_blank (deref cur) = true ∨ is_operator cur = true ∨ is_word cur = true) ∧
      tokenize line ≠ .error Unexpected_character := by
  refine ⟨?_, fun k => h (tokenize_loop_unexpected_scan _ line k)⟩
  intro cur hr hd
  obtain ⟨c, cs, hl, hc0⟩ := deref_ne_NUL hd
  subst hl
  rw [deref_cons]
  by_contra hcon
  simp only [not_or, Bool.not_eq_true] at hcon
  have hs := loop_reaches_scan hr
  rcases unclassified_is_redirect c cs hc0 hcon.1 hcon.2.1 hcon.2.2 with k | k <;>
    subst k <;> exact h (hs ▸ rfl)

theorem tokenize_no_unexpected_character_witness :
    scan .bare ['e', 'c', 'h', 'o', ' ', DOUBLE_QUOTE_CHAR, 'a', '>', 'b',
        DOUBLE_QUOTE_CHAR, SINGLE_QUOTE_CHAR, '<', SINGLE_QUOTE_CHAR] ≠
        .unexpected_character ∧
      tokenize ['e', 'c', 'h', 'o', ' ', DOUBLE_QUOTE_CHAR, 'a', '>', 'b',
        DOUBLE_QUOTE_CHAR, SINGLE_QUOTE_CHAR, '<', SINGLE_QUOTE_CHAR] =
        .ok [new_token (some ['e', 'c', 'h', 'o']) TK_WORD,
          new_token (some [DOUBLE_QUOTE_CHAR, 'a', '>', 'b', DOUBLE_QUOTE_CHAR,
            SINGLE_QUOTE_CHAR, '<', SINGLE_QUOTE_CHAR]) TK_WORD,
          new_token none TK_EOF] ∧
      (∀ cur, loop_reaches ['e', 'c', 'h', 'o', ' ', DOUBLE_QUOTE_CHAR, 'a', '>', 'b',
          DOUBLE_QUOTE_CHAR, SINGLE_QUOTE_CHAR, '<', SINGLE_QUOTE_CHAR] cur →
        deref cur ≠ NUL →
        is_blank (deref cur) = true ∨ is_operator cur = true ∨ is_word cur = true) ∧
      tokenize ['e', 'c', 'h', 'o', ' ', DOUBLE_QUOTE_CHAR, 'a', '>', 'b',
        DOUBLE_QUOTE_CHAR, SINGLE_QUOTE_CHAR, '<', SINGLE_QUOTE_CHAR] ≠
        .error Unexpected_character :=
  ⟨by decide, by decide, tokenize_no_unexpected_character _ (by decide)⟩

end Minishell
